import Mathlib

/-!
Shallow embedding of `scripts/step2-generate-cards.py` (subtitle parsing,
segment merging, cross-track alignment, chapter bucketing, card building).

Strings are modelled as `List Char`; times as `ℚ` (Python floats carry the
exact decimal literals appearing in every claim considered here); Python code
that can raise is modelled with `Option`.

Scanning loops that are not structurally recursive are written with an
explicit fuel argument (always instantiated with the list length, which is an
upper bound for every chain of recursive calls), so that all definitions
reduce inside the kernel.
-/

attribute [local semireducible] Rat.add Rat.mul Rat.inv Rat.sub

/-- Whitespace characters recognised by Python's `str.strip` / `re` `\s`
(ASCII whitespace plus the Unicode space characters relevant to `str`). -/
def pySpaceChars : List Char :=
  [' ', '\t', '\n', '\x0d', '\x0b', '\x0c',
   '\x1c', '\x1d', '\x1e', '\x1f', '\x85', '\xa0',
   ' ', ' ', ' ', ' ', ' ', ' ', ' ',
   ' ', ' ', ' ', ' ', ' ',
   ' ', ' ', ' ', ' ', '　']

/-- Decidable whitespace test used throughout (Python `\s` / `str.strip`). -/
def pyIsSpace (c : Char) : Bool := pySpaceChars.contains c

/-- Python `str.lstrip()`. -/
def lstripChars (l : List Char) : List Char := l.dropWhile pyIsSpace

/-- Python `str.rstrip()`. -/
def rstripChars (l : List Char) : List Char := (l.reverse.dropWhile pyIsSpace).reverse

/-- Python `str.strip()`. -/
def stripChars (l : List Char) : List Char := rstripChars (lstripChars l)

/-- Python `str.split(sep)` for a one-character separator: empty parts are
kept, the result is always nonempty. -/
def splitOnChar (sep : Char) : List Char → List (List Char)
  | [] => [[]]
  | c :: rest =>
    let r := splitOnChar sep rest
    if c = sep then [] :: r
    else
      match r with
      | [] => [[c]]
      | h :: t => (c :: h) :: t

/-- Python `" ".join(parts)`. -/
def joinSpace (parts : List (List Char)) : List Char := List.intercalate [' '] parts

/-- Python `"\r\n" → "\n"` then `"\r" → "\n"` (`parse_srt`'s newline
normalisation). -/
def normNl : List Char → List Char
  | [] => []
  | '\x0d' :: '\n' :: rest => '\n' :: normNl rest
  | '\x0d' :: rest => '\n' :: normNl rest
  | c :: rest => c :: normNl rest

/-- Python `"-->" in s`. -/
def containsArrow : List Char → Bool
  | '-' :: '-' :: '>' :: _ => true
  | _ :: rest => containsArrow rest
  | [] => false

/-! ### The cleaning regexes of `parse_srt`

`re.sub(r"<[^>]+>", "", s)` and `re.sub(r"\[[^\]]+\]", "", s)` share one
shape: an opening character, one-or-more non-closing characters, the first
closing character.  `stripDelim op cl` models that left-to-right
non-overlapping substitution. -/

/-- Scan for the first occurrence of `cl`; return the suffix after it. -/
def findCl (cl : Char) : List Char → Option (List Char)
  | [] => none
  | c :: rest => if c = cl then some rest else findCl cl rest

/-- Match `[^cl]+ cl` at the head of the list (the tail of a delimiter match),
returning the suffix after the closing character. -/
def delimTail (cl : Char) : List Char → Option (List Char)
  | [] => none
  | c :: rest => if c = cl then none else findCl cl rest

/-- Fuelled worker for `stripDelim`. -/
def stripDelimGo (op cl : Char) : ℕ → List Char → List Char
  | 0, _ => []
  | _ + 1, [] => []
  | fuel + 1, c :: rest =>
    if c = op then
      match delimTail cl rest with
      | some rest' => stripDelimGo op cl fuel rest'
      | none => c :: stripDelimGo op cl fuel rest
    else c :: stripDelimGo op cl fuel rest

/-- Left-to-right non-overlapping `re.sub` of the pattern `op [^cl]+ cl`
with the empty string (models the tag and bracket stripping in `parse_srt`). -/
def stripDelim (op cl : Char) (l : List Char) : List Char :=
  stripDelimGo op cl l.length l

/-- Lazy scan of `.*?\}` (a dot does not match a newline): the suffix after
the first `}` provided no newline comes before it. -/
def braceEnd : List Char → Option (List Char)
  | [] => none
  | c :: rest => if c = '}' then some rest else if c = '\n' then none else braceEnd rest

/-- Fuelled worker for `stripBraces`. -/
def stripBracesGo : ℕ → List Char → List Char
  | 0, _ => []
  | _ + 1, [] => []
  | fuel + 1, c :: rest =>
    if c = '{' ∧ rest.head? = some '\\' then
      match braceEnd rest.tail with
      | some rest' => stripBracesGo fuel rest'
      | none => c :: stripBracesGo fuel rest
    else c :: stripBracesGo fuel rest

/-- Left-to-right non-overlapping `re.sub(r"\{\\.*?\}", "", s)` (styling
directive stripping in `parse_srt`).  A match requires `{` immediately
followed by `\`, then the lazy `.*?\}` scan. -/
def stripBraces (l : List Char) : List Char :=
  stripBracesGo l.length l

/-- Python `s.replace("♪", " ")` as a character map. -/
def noteChar (c : Char) : Char := if c = '♪' then ' ' else c

/-- Musical-note replacement of `parse_srt`. -/
def noteRepl (l : List Char) : List Char := l.map noteChar

/-- Fuelled worker for `collapseWs`. -/
def collapseWsGo : ℕ → List Char → List Char
  | 0, _ => []
  | _ + 1, [] => []
  | fuel + 1, c :: rest =>
    if pyIsSpace c then ' ' :: collapseWsGo fuel (rest.dropWhile pyIsSpace)
    else c :: collapseWsGo fuel rest

/-- Python `re.sub(r"\s+", " ", s)`: every maximal whitespace run becomes one
space. -/
def collapseWs (l : List Char) : List Char :=
  collapseWsGo l.length l

/-- The full text-cleaning pipeline of `parse_srt` applied to the joined text
lines of a block: tag stripping, styling-directive stripping, bracketed
annotation stripping, musical-note removal, whitespace collapsing, trimming. -/
def cleanText (l : List Char) : List Char :=
  stripChars (collapseWs (noteRepl (stripDelim '[' ']' (stripBraces (stripDelim '<' '>' l)))))

/-! ### Timestamps -/

/-- Digit-list accumulator for `pyInt`. -/
def digitsAccum : List Char → ℕ → Option ℕ
  | [], acc => some acc
  | c :: rest, acc => if c.isDigit then digitsAccum rest (acc * 10 + (c.toNat - 48)) else none

/-- Parse a nonempty all-digit string. -/
def parseNatDigits (l : List Char) : Option ℕ :=
  if l.isEmpty then none else digitsAccum l 0

/-- Python `int(s)`: optional surrounding whitespace, optional sign, digits.
(Python additionally accepts underscore digit grouping and non-ASCII decimal
digits; neither can reach the call sites modelled here, where the argument
always comes from a `\d`-matched group.) -/
def pyInt (l : List Char) : Option ℤ :=
  let t := stripChars l
  if t.head? = some '-' then (parseNatDigits t.tail).map (fun n => -(n : ℤ))
  else if t.head? = some '+' then (parseNatDigits t.tail).map (fun n => (n : ℤ))
  else (parseNatDigits t).map (fun n => (n : ℤ))

/-- Python `t2s`: `"HH:MM:SS,mmm"` to seconds.  `hh, mm, rest = s.split(":")`
raises unless the split has exactly three parts, `ss, ms = rest.split(",")`
raises unless exactly two; a raise is modelled as `none`. -/
def t2s (l : List Char) : Option ℚ :=
  match splitOnChar ':' l with
  | [hh, mm, rest] =>
    match splitOnChar ',' rest with
    | [ss, ms] => do
      let h ← pyInt hh
      let m ← pyInt mm
      let s ← pyInt ss
      let v ← pyInt ms
      pure ((h : ℚ) * 3600 + (m : ℚ) * 60 + (s : ℚ) + (v : ℚ) / 1000)
    | _ => none
  | _ => none

/-- Render a natural number in decimal, zero-padded to at least two digits
(Python `f"{n:02d}"` for nonnegative `n`). -/
def pad2 (n : ℕ) : List Char :=
  let d := Nat.toDigits 10 n
  if d.length < 2 then '0' :: d else d

/-- Python `hms`: clock string `HH:MM:SS` from seconds (floor, clamped to
nonnegative). -/
def hms (seconds : ℚ) : List Char :=
  let s : ℕ := (max 0 ⌊seconds⌋).toNat
  pad2 (s / 3600) ++ ':' :: pad2 (s % 3600 / 60) ++ ':' :: pad2 (s % 60)

/-- Match `\d\d:\d\d:\d\d,\d\d\d` at the head of the list; return the matched
group and the remainder. -/
def matchTs : List Char → Option (List Char × List Char)
  | a :: b :: ':' :: c :: d :: ':' :: e :: f :: ',' :: x :: y :: z :: rest =>
    if a.isDigit && b.isDigit && c.isDigit && d.isDigit && e.isDigit && f.isDigit
        && x.isDigit && y.isDigit && z.isDigit then
      some ([a, b, ':', c, d, ':', e, f, ',', x, y, z], rest)
    else none
  | _ => none

/-- Match the literal `-->` at the head of the list. -/
def arrowRest : List Char → Option (List Char)
  | '-' :: '-' :: '>' :: rest => some rest
  | _ => none

/-- Try the full `TIME_RE` pattern `ts \s* --> \s* ts` at the head of the
list, returning the two timestamp groups. -/
def tryTimePairAt (l : List Char) : Option (List Char × List Char) := do
  let (g1, r1) ← matchTs l
  let r2 ← arrowRest (r1.dropWhile pyIsSpace)
  let (g2, _) ← matchTs (r2.dropWhile pyIsSpace)
  pure (g1, g2)

/-- Python `TIME_RE.search`: leftmost match of the timestamp-pair pattern. -/
def findTimePair : List Char → Option (List Char × List Char)
  | [] => none
  | c :: rest =>
    match tryTimePairAt (c :: rest) with
    | some r => some r
    | none => findTimePair rest

/-! ### Block splitting (`re.split(r"\n\s*\n", text)`) -/

/-- Split a list at its last newline: `l = p ++ '\n' :: q` with `q`
newline-free, when a newline exists. -/
def splitLastNl : List Char → Option (List Char × List Char)
  | [] => none
  | c :: rest =>
    match splitLastNl rest with
    | some (p, q) => some (c :: p, q)
    | none => if c = '\n' then some ([], rest) else none

/-- Greedy match of `\n\s*\n` at the head of the list: a newline, then the
maximal whitespace run, backtracking to the last newline inside it.  Returns
the remainder after the match. -/
def sepMatch : List Char → Option (List Char)
  | '\n' :: rest =>
    (match splitLastNl (rest.takeWhile pyIsSpace) with
     | some (_, q) => some (q ++ rest.dropWhile pyIsSpace)
     | none => none)
  | _ => none

/-- Fuelled worker for `blockSplit`. -/
def blockSplitGo : ℕ → List Char → List Char → List (List Char)
  | 0, acc, rest => [acc.reverse ++ rest]
  | _ + 1, acc, [] => [acc.reverse]
  | fuel + 1, acc, c :: rest =>
    match sepMatch (c :: rest) with
    | some rem => acc.reverse :: blockSplitGo fuel [] rem
    | none => blockSplitGo fuel (c :: acc) rest

/-- Python `re.split(r"\n\s*\n", text)`. -/
def blockSplit (l : List Char) : List (List Char) :=
  blockSplitGo l.length [] l

/-! ### The parser (`parse_srt`) -/

/-- One timed unit of text from one track (the parser's entry dictionaries;
`stop` models the dictionary key `"end"`, a Lean keyword). -/
structure Entry where
  start : ℚ
  stop : ℚ
  text : List Char
deriving DecidableEq, Repr

/-- Nonempty stripped lines of a block (`[l.strip() for l in block.split("\n") if l.strip()]`). -/
def blockLines (b : List Char) : List (List Char) :=
  ((splitOnChar '\n' b).map stripChars).filter (fun l => !l.isEmpty)

/-- The per-block body of `parse_srt`'s loop.  `none` models a raised
exception (never reachable, see `parse_srt_total`); `some none` a silently
discarded block; `some (some e)` a produced entry. -/
def parseBlock (lines : List (List Char)) : Option (Option Entry) :=
  match lines with
  | l0 :: l1 :: rest =>
    let tl := if containsArrow l0 then (l0, l1 :: rest) else (l1, rest)
    (match findTimePair tl.1 with
     | none => some none
     | some (g1, g2) => do
       let s ← t2s g1
       let e ← t2s g2
       let sub := cleanText (joinSpace tl.2)
       pure (if sub.isEmpty then none else some ⟨s, e, sub⟩))
  | _ => some none

/-- Fold `parseBlock` over the blocks, keeping produced entries in order. -/
def collectBlocks : List (List Char) → Option (List Entry)
  | [] => some []
  | b :: bs => do
    let e ← parseBlock (blockLines b)
    let rest ← collectBlocks bs
    pure (match e with | none => rest | some ent => ent :: rest)

/-- Python `parse_srt` on the decoded document text. -/
def parse_srt (doc : List Char) : Option (List Entry) :=
  collectBlocks (blockSplit (stripChars (normNl doc)))

/-! ### The segment merger (`merge_adjacent_entries`) -/

/-- Worker for `merge_adjacent_entries`: `cur` is the accumulating current
entry, the list is the remaining input. -/
def mergeGo (gap : ℚ) : Entry → List Entry → List Entry
  | cur, [] => [cur]
  | cur, nxt :: rest =>
    if nxt.start - cur.stop ≤ gap then
      mergeGo gap ⟨cur.start, max cur.stop nxt.stop,
        stripChars (rstripChars cur.text ++ ' ' :: lstripChars nxt.text)⟩ rest
    else cur :: mergeGo gap nxt rest

/-- Python `merge_adjacent_entries`. -/
def merge_adjacent_entries (entries : List Entry) (gap : ℚ) : List Entry :=
  match entries with
  | [] => []
  | e :: rest => mergeGo gap e rest

/-! ### Chapters and windowing -/

/-- The chapter number computed by `chapter_id`'s body
(`int(seconds // (chapter_minutes * 60)) + 1`), meaningful only for a
nonzero chapter size. -/
def chapterKey (seconds : ℚ) (chapter_minutes : ℕ) : ℤ :=
  ⌊seconds / ((chapter_minutes : ℚ) * 60)⌋ + 1

/-- Python `chapter_id`: raises `ZeroDivisionError` (modelled `none`) when the
chapter size is zero. -/
def chapter_id (seconds : ℚ) (chapter_minutes : ℕ) : Option ℤ :=
  if chapter_minutes = 0 then none else some (chapterKey seconds chapter_minutes)

/-- The leading-window filter of `main`:
`[e for e in parse_srt(path) if e["start"] < max_seconds]`. -/
def windowFilter (entries : List Entry) (max_seconds : ℚ) : List Entry :=
  entries.filter (fun e => e.start < max_seconds)

/-! ### The cross-track aligner (`collect_de_range_monotonic`) -/

/-- Fuelled worker for the advance loop
(`while i < len(de_entries) and de_entries[i]["end"] < window_start`). -/
def deAdvanceGo (des : List Entry) (ws : ℚ) : ℕ → ℕ → ℕ
  | 0, i => i
  | fuel + 1, i =>
    match des[i]? with
    | none => i
    | some d => if d.stop < ws then deAdvanceGo des ws fuel (i + 1) else i

/-- Advance past secondary entries ending strictly before the window. -/
def deAdvance (des : List Entry) (ws : ℚ) (i : ℕ) : ℕ :=
  deAdvanceGo des ws des.length i

/-- Fuelled worker for the collection loop of `collect_de_range_monotonic`. -/
def deScanGo (des : List Entry) (ws we : ℚ) (maxL : ℕ) : ℕ → ℕ → List (List Char) → List (List Char) × ℕ
  | 0, j, texts => (texts, j)
  | fuel + 1, j, texts =>
    match des[j]? with
    | none => (texts, j)
    | some d =>
      if texts.length < maxL then
        if d.start > we then (texts, j)
        else if d.stop ≥ ws ∧ d.start ≤ we then deScanGo des ws we maxL fuel (j + 1) (texts ++ [d.text])
        else deScanGo des ws we maxL fuel (j + 1) texts
      else (texts, j)

/-- Scan forward collecting overlapping secondary texts, stopping at the line
cap or at the first entry starting past the window. -/
def deScan (des : List Entry) (ws we : ℚ) (maxL : ℕ) (i : ℕ) : List (List Char) × ℕ :=
  deScanGo des ws we maxL des.length i []

/-- Collapse immediately-repeated identical strings
(the `compact` loop of `collect_de_range_monotonic`). -/
def compactDups : List (List Char) → List (List Char)
  | [] => []
  | [t] => [t]
  | t :: u :: rest => if t = u then compactDups (u :: rest) else t :: compactDups (u :: rest)

/-- Python `collect_de_range_monotonic`: returns the concatenated secondary
text and the next cursor value. -/
def collect_de_range_monotonic (it_start it_stop : ℚ) (de_entries : List Entry)
    (start_index : ℕ) (pad_seconds : ℚ) (max_lines : ℕ) : List Char × ℕ :=
  if de_entries.isEmpty then ([], start_index)
  else
    let ws := max 0 (it_start - pad_seconds)
    let we := it_stop + pad_seconds
    let i := deAdvance de_entries ws start_index
    let tj := deScan de_entries ws we max_lines i
    let nextIdx := max start_index (if start_index < tj.2 then tj.2 - 1 else start_index)
    (stripChars (joinSpace (compactDups tj.1)), nextIdx)

/-! ### Phrase cards (`build_phrase_cards`) -/

/-- One phrase card.  `idx` is the 1-based sequential number rendered by the
script as `p_%04d`; the constant `type`/`source` fields are omitted. -/
structure PhraseCard where
  idx : ℕ
  chapterId : ℤ
  start : ℚ
  stop : ℚ
  timestamp : List Char
  it : List Char
  de : List Char
deriving DecidableEq, Repr

/-- Worker for `build_phrase_cards`: threads the card index and the secondary
cursor through the primary entries. -/
def buildPhraseGo (des : List Entry) (cm : ℕ) (pad : ℚ) (maxL : ℕ) : ℕ → ℕ → List Entry → List PhraseCard
  | _, _, [] => []
  | idx, deIdx, it :: rest =>
    let r := collect_de_range_monotonic it.start it.stop des deIdx pad maxL
    ⟨idx + 1, chapterKey it.start cm, it.start, it.stop, hms it.start, it.text, r.1⟩
      :: buildPhraseGo des cm pad maxL (idx + 1) r.2 rest

/-- Python `build_phrase_cards`.  A zero chapter size makes the first card's
`chapter_id` call raise, modelled as `none`. -/
def build_phrase_cards (it_entries de_entries : List Entry) (chapter_minutes : ℕ)
    (de_pad_seconds : ℚ) (de_max_lines : ℕ) : Option (List PhraseCard) :=
  if chapter_minutes = 0 ∧ it_entries ≠ [] then none
  else some (buildPhraseGo de_entries chapter_minutes de_pad_seconds de_max_lines 0 0 it_entries)

/-- The successive secondary-track cursor values used by `build_phrase_cards`,
one per aligned pair, starting from `de_index = 0`. -/
def cursorTraceFrom (des : List Entry) (pad : ℚ) (maxL : ℕ) : ℕ → List Entry → List ℕ
  | _, [] => []
  | i, it :: rest =>
    i :: cursorTraceFrom des pad maxL (collect_de_range_monotonic it.start it.stop des i pad maxL).2 rest

/-- Cursor trace of a full alignment run. -/
def cursorTrace (its des : List Entry) (pad : ℚ) (maxL : ℕ) : List ℕ :=
  cursorTraceFrom des pad maxL 0 its

/-! ### Word cards (`build_word_cards`) -/

/-- Lower-casing restricted to the characters `TOKEN_RE` can produce
(ASCII letters and the accented vowels of the token character class);
Python's `str.lower` on anything else never reaches the token pipeline. -/
def lowerChar (c : Char) : Char :=
  if 'A' ≤ c ∧ c ≤ 'Z' then Char.ofNat (c.toNat + 32)
  else if c = 'À' then 'à'
  else if c = 'È' then 'è'
  else if c = 'É' then 'é'
  else if c = 'Ì' then 'ì'
  else if c = 'Ò' then 'ò'
  else if c = 'Ó' then 'ó'
  else if c = 'Ù' then 'ù'
  else c

/-- Python `t.replace("’", "'")` as a character map (kept from the source; a
curly apostrophe can in fact never appear in a `TOKEN_RE` match). -/
def curlyFix (c : Char) : Char := if c = '’' then '\'' else c

/-- Membership in the character class of
`TOKEN_RE = re.compile(r"[a-zàèéìòóù']+", re.IGNORECASE)`. -/
def isTokenChar (c : Char) : Bool :=
  ('a' ≤ c && c ≤ 'z') || ('A' ≤ c && c ≤ 'Z') || c = '\x27' ||
    ['à', 'è', 'é', 'ì', 'ò', 'ó', 'ù', 'À', 'È', 'É', 'Ì', 'Ò', 'Ó', 'Ù'].contains c

/-- Fuelled worker for `findTokens`. -/
def findTokensGo : ℕ → List Char → List (List Char)
  | 0, _ => []
  | _ + 1, [] => []
  | fuel + 1, c :: rest =>
    if isTokenChar c then
      (c :: rest.takeWhile isTokenChar) :: findTokensGo fuel (rest.dropWhile isTokenChar)
    else findTokensGo fuel rest

/-- Python `TOKEN_RE.findall`: maximal runs of token characters. -/
def findTokens (l : List Char) : List (List Char) :=
  findTokensGo l.length l

/-- The token list of one primary text: find, lower-case, normalise curly
apostrophes, then drop short tokens and stop words. -/
def tokensOf (min_word_length : ℕ) (stopwords : List (List Char)) (text : List Char) : List (List Char) :=
  (((findTokens text).map (fun t => (t.map lowerChar).map curlyFix)).filter
    (fun t => decide (min_word_length ≤ t.length) && !stopwords.contains t))

/-- An example record attached to a word card. -/
structure WExample where
  timestamp : List Char
  it : List Char
  de : List Char
deriving DecidableEq, Repr

/-- Accumulator cell for one token inside one chapter: the running count and
the captured examples, in encounter order. -/
structure TokCount where
  tok : List Char
  cnt : ℕ
  exs : List WExample
deriving DecidableEq, Repr

/-- One word card (constant `type`/`de`/`wordInfo`/`source` fields omitted;
the `id` string `w_c{ch}_{token}` is determined by `chapterId` and `it`). -/
structure WordCard where
  chapterId : ℤ
  it : List Char
  freq : ℕ
  examples : List WExample
deriving DecidableEq, Repr

/-- Record one occurrence of token `t` in a chapter state: bump its counter
(inserting at the back on first encounter) and append the example while under
the example cap. -/
def bumpToken (maxEx : ℕ) (ex : WExample) (t : List Char) : List TokCount → List TokCount
  | [] => [⟨t, 1, if 0 < maxEx then [ex] else []⟩]
  | tc :: rest =>
    if tc.tok = t then
      ⟨tc.tok, tc.cnt + 1, if tc.exs.length < maxEx then tc.exs ++ [ex] else tc.exs⟩ :: rest
    else tc :: bumpToken maxEx ex t rest

/-- Apply `f` to the state of chapter `ch`, inserting the chapter at the back
on first encounter (Python `defaultdict` key creation order). -/
def bumpChapter (ch : ℤ) (f : List TokCount → List TokCount) : List (ℤ × List TokCount) → List (ℤ × List TokCount)
  | [] => [(ch, f [])]
  | p :: rest => if p.1 = ch then (p.1, f p.2) :: rest else p :: bumpChapter ch f rest

/-- The per-chapter/per-token accumulation loop of `build_word_cards` over
`zip(it_entries, phrase_cards)`.  The two Python dictionaries
(`chapter_token_counts`, `chapter_examples`) share their key-creation order,
so they are modelled as one insertion-ordered association list. -/
def wordAccum (cm : ℕ) (minLen : ℕ) (stopwords : List (List Char)) (maxEx : ℕ)
    (pairs : List (Entry × PhraseCard)) : List (ℤ × List TokCount) :=
  pairs.foldl
    (fun acc p =>
      (tokensOf minLen stopwords p.1.text).foldl
        (fun a tok => bumpChapter (chapterKey p.1.start cm) (bumpToken maxEx ⟨hms p.1.start, p.1.text, p.2.de⟩ tok) a)
        acc)
    []

/-- Stable descending insertion by count: skip past strictly greater counts,
so an earlier-encountered token precedes later ones with the same count. -/
def rankInsert (a : TokCount) : List TokCount → List TokCount
  | [] => [a]
  | b :: rest => if a.cnt < b.cnt then b :: rankInsert a rest else a :: b :: rest

/-- Stable sort by descending count.  `Counter.most_common` sorts by count
descending with ties in insertion order (`heapq.nlargest` is stable); a
stable sort under a total preorder is unique, so this insertion sort computes
exactly its output. -/
def rankSort : List TokCount → List TokCount
  | [] => []
  | a :: rest => rankInsert a (rankSort rest)

/-- Python `counter.most_common(n)`. -/
def most_common (n : ℕ) (l : List TokCount) : List TokCount :=
  (rankSort l).take n

/-- Ascending insertion by chapter id (keys are distinct, so stability is
irrelevant). -/
def chInsert (a : ℤ × List TokCount) : List (ℤ × List TokCount) → List (ℤ × List TokCount)
  | [] => [a]
  | b :: rest => if b.1 < a.1 then b :: chInsert a rest else a :: b :: rest

/-- Python `sorted(chapter_token_counts.items())`: chapters by ascending id. -/
def sortChapters : List (ℤ × List TokCount) → List (ℤ × List TokCount)
  | [] => []
  | a :: rest => chInsert a (sortChapters rest)

/-- Python `build_word_cards`.  With a zero chapter size the first loop
iteration raises in `chapter_id` (modelled `none`); otherwise cards are
emitted per chapter in ascending id order, each chapter truncated to the top
`max_words_per_chapter` tokens of its stable descending ranking. -/
def build_word_cards (it_entries : List Entry) (phrase_cards : List PhraseCard)
    (chapter_minutes : ℕ) (min_word_length : ℕ) (max_words_per_chapter : ℕ)
    (stopwords : List (List Char)) (max_examples_per_token : ℕ) : Option (List WordCard) :=
  if chapter_minutes = 0 ∧ ¬(it_entries.zip phrase_cards).isEmpty then none
  else some
    ((sortChapters (wordAccum chapter_minutes min_word_length stopwords max_examples_per_token
        (it_entries.zip phrase_cards))).flatMap
      (fun p => (most_common max_words_per_chapter p.2).map
        (fun t => ⟨p.1, t.tok, t.cnt, t.exs⟩)))

/-- First-seen (encounter) order of the surviving tokens of one chapter: the
key order of the insertion-ordered accumulator. -/
def firstSeenTokens (it_entries : List Entry) (phrase_cards : List PhraseCard)
    (chapter_minutes min_word_length : ℕ) (stopwords : List (List Char))
    (max_examples_per_token : ℕ) (ch : ℤ) : List (List Char) :=
  (((wordAccum chapter_minutes min_word_length stopwords max_examples_per_token
      (it_entries.zip phrase_cards)).lookup ch).getD []).map TokCount.tok

/-- The ordering the word-card list is claimed to satisfy between consecutive
cards: strictly later chapter, or same chapter with strictly smaller
frequency, or same chapter and frequency with the tokens in first-seen order. -/
def cardRel (firstSeen : ℤ → List (List Char)) (c d : WordCard) : Prop :=
  c.chapterId < d.chapterId ∨
    (c.chapterId = d.chapterId ∧
      (d.freq < c.freq ∨ (c.freq = d.freq ∧ [c.it, d.it].Sublist (firstSeen c.chapterId))))

/-- The default Italian stop-word set of the script. -/
def DEFAULT_STOPWORDS_IT : List (List Char) :=
  (["che", "e", "di", "a", "da", "in", "un", "una", "il", "lo", "la", "i", "gli", "le",
    "mi", "ti", "si", "ci", "vi", "non", "per", "con", "su", "ma", "o", "ora", "poi",
    "sono", "sei", "era", "hai", "ho", "ha", "abbiamo", "avete", "hanno", "del", "della", "dei", "delle",
    "al", "allo", "alla", "ai", "agli", "alle", "nel", "nello", "nella", "nei", "negli", "nelle",
    "è"].map String.toList) ++
  [['u', 'n', '\x27'], ['l', '\x27'], ['d', '\x27'], ['c', '\x27'],
   ['m', '\x27'], ['t', '\x27'], ['s', '\x27'], ['e', '\x27']]

/-! ### Predicates used by the verification -/

/-- A list is free of `op [^cl]+ cl` delimiter matches: every occurrence of
`op` is immediately followed by `cl` or by no `cl` at all.  This is exactly
the configurations on which `stripDelim op cl` is the identity. -/
def delimFree (op cl : Char) : List Char → Bool
  | [] => true
  | c :: rest => (if c = op then (delimTail cl rest).isNone else true) && delimFree op cl rest

/-- Whitespace-normalised text: every whitespace character is a single space
not followed by further whitespace (the shape produced by `collapseWs`). -/
def wsNormal : List Char → Bool
  | [] => true
  | [c] => !pyIsSpace c || (c = ' ')
  | c :: d :: rest => (!pyIsSpace c || (decide (c = ' ') && !pyIsSpace d)) && wsNormal (d :: rest)

/-- The pairwise relation witnessing stability of the per-chapter ranking
relative to the encounter-ordered input `L`. -/
def rankRel (L : List TokCount) (c d : TokCount) : Prop :=
  d.cnt < c.cnt ∨ (c.cnt = d.cnt ∧ [c, d].Sublist L)

/-! ### The spec's example scenario

Two primary Segments `[0.0, 1.0)` "ciao mondo" and `[1.2, 2.0)`
"ciao di nuovo"; one secondary Segment `[0.1, 1.9)` "hallo welt";
pad 0.25 s, at most 4 secondary lines, 7-minute chapters. -/

/-- Primary track of the example scenario. -/
def itsScenario : List Entry :=
  [⟨0, 1, ("ciao mondo").toList⟩, ⟨12/10, 2, ("ciao di nuovo").toList⟩]

/-- Secondary track of the example scenario. -/
def desScenario : List Entry := [⟨1/10, 19/10, ("hallo welt").toList⟩]

/-- The phrase cards the script builds for the scenario. -/
def phrScenario : List PhraseCard :=
  (build_phrase_cards itsScenario desScenario 7 (1/4) 4).getD []

/-- The word cards the script builds for the scenario. -/
def wcScenario : List WordCard :=
  [⟨1, ("ciao").toList, 2,
     [⟨("00:00:00").toList, ("ciao mondo").toList, ("hallo welt").toList⟩,
      ⟨("00:00:01").toList, ("ciao di nuovo").toList, ("hallo welt").toList⟩]⟩,
   ⟨1, ("mondo").toList, 1,
     [⟨("00:00:00").toList, ("ciao mondo").toList, ("hallo welt").toList⟩]⟩,
   ⟨1, ("nuovo").toList, 1,
     [⟨("00:00:01").toList, ("ciao di nuovo").toList, ("hallo welt").toList⟩]⟩]

/-! ## Theorems -/

/-! ### Generic string lemmas -/

theorem dropWhile_dropWhile_self (p : Char → Bool) (l : List Char) :
    (l.dropWhile p).dropWhile p = l.dropWhile p := by
  induction l with
  | nil => simp
  | cons c rest ih =>
    by_cases h : p c
    · simpa [List.dropWhile_cons, h] using ih
    · simp [List.dropWhile_cons, h]

theorem rstripChars_idem (l : List Char) : rstripChars (rstripChars l) = rstripChars l := by
  simp [rstripChars, dropWhile_dropWhile_self]

theorem rstripChars_stripChars (l : List Char) : rstripChars (stripChars l) = stripChars l := by
  simp [stripChars, rstripChars_idem]

theorem rstripChars_append_eq (l : List Char) :
    rstripChars l ++ (l.reverse.takeWhile pyIsSpace).reverse = l := by
  rw [rstripChars, ← List.reverse_append, List.takeWhile_append_dropWhile, List.reverse_reverse]

theorem dropWhile_eq_self_of (p : Char → Bool) : ∀ {l : List Char},
    (∀ c ∈ l, p c = false) → l.dropWhile p = l := by
  intro l h
  cases l with
  | nil => simp
  | cons c rest => simp [List.dropWhile_cons, h c (by simp)]

theorem stripChars_eq_self {l : List Char} (h : ∀ c ∈ l, pyIsSpace c = false) :
    stripChars l = l := by
  have h1 : lstripChars l = l := dropWhile_eq_self_of _ h
  have h2 : rstripChars l = l := by
    rw [rstripChars, dropWhile_eq_self_of _ (fun c hc => h c (by simpa using hc)), List.reverse_reverse]
  rw [stripChars, h1, h2]

theorem head_dropWhile_not {p : Char → Bool} : ∀ {l : List Char} {c : Char},
    (l.dropWhile p).head? = some c → p c = false := by
  intro l
  induction l with
  | nil => intro c h; simp [List.dropWhile] at h
  | cons d rest ih =>
    intro c h
    by_cases hd : p d
    · rw [List.dropWhile_cons, if_pos (by simpa using hd)] at h
      exact ih h
    · rw [List.dropWhile_cons, if_neg (by simpa using hd)] at h
      simp at h
      rw [← h]
      simpa using hd

theorem head?_rstripChars {l : List Char} (h : rstripChars l ≠ []) :
    (rstripChars l).head? = l.head? := by
  conv_rhs => rw [← rstripChars_append_eq l]
  cases hr : rstripChars l with
  | nil => exact absurd hr h
  | cons c r => simp

theorem lstripChars_idem (l : List Char) : lstripChars (lstripChars l) = lstripChars l :=
  dropWhile_dropWhile_self _ _

theorem lstripChars_rstripChars_lstripChars (l : List Char) :
    lstripChars (rstripChars (lstripChars l)) = rstripChars (lstripChars l) := by
  cases hr : rstripChars (lstripChars l) with
  | nil => rfl
  | cons c r =>
    have hhead : (rstripChars (lstripChars l)).head? = (lstripChars l).head? :=
      head?_rstripChars (by simp [hr])
    rw [hr] at hhead
    have hc : pyIsSpace c = false := head_dropWhile_not (p := pyIsSpace) (l := l) hhead.symm
    rw [lstripChars, List.dropWhile_cons, if_neg (by simp [hc])]

theorem stripChars_idem (l : List Char) : stripChars (stripChars l) = stripChars l := by
  rw [stripChars, stripChars, lstripChars_rstripChars_lstripChars, rstripChars_idem]

/-! ### C5 — monotonic cursor -/

theorem collect_next_ge (s e : ℚ) (des : List Entry) (i : ℕ) (pad : ℚ) (m : ℕ) :
    i ≤ (collect_de_range_monotonic s e des i pad m).2 := by
  unfold collect_de_range_monotonic
  split
  · simp
  · exact Nat.le_max_left _ _

theorem cursorTraceFrom_chain (des : List Entry) (pad : ℚ) (maxL : ℕ) :
    ∀ (its : List Entry) (i : ℕ), List.Chain' (· ≤ ·) (cursorTraceFrom des pad maxL i its) := by
  intro its
  induction its with
  | nil => intro i; simp [cursorTraceFrom]
  | cons it rest ih =>
    intro i
    cases rest with
    | nil => simp [cursorTraceFrom]
    | cons it2 rest2 =>
      rw [cursorTraceFrom, cursorTraceFrom]
      refine List.Chain'.cons ?_ ?_
      · exact collect_next_ge _ _ _ _ _ _
      · rw [← cursorTraceFrom]
        exact ih _

/-- Claim C5: the secondary-track cursor is monotonic — across the aligned
pairs produced for any primary sequence, secondary sequence, pad and line
cap, the start index used for each pair never decreases. -/
theorem c5_cursor_monotonic (its des : List Entry) (pad : ℚ) (maxL : ℕ) :
    List.Chain' (· ≤ ·) (cursorTrace its des pad maxL) :=
  cursorTraceFrom_chain des pad maxL its 0

/-! ### C9 — zero chapter size raises -/

/-- Claim C9: with a zero chapter size, `chapter_id` raises
(`ZeroDivisionError`, modelled as `none`) for every seconds value instead of
returning a number. -/
theorem c9_chapter_zero_raises (seconds : ℚ) : chapter_id seconds 0 = none := by
  simp [chapter_id]

/-! ### C1 — the cursor revisits the last consumed secondary entry -/

/-- Claim C1, counterexample: in the spec's example scenario the second
Phrase Card's secondary text is "hallo welt", not the empty string — the
single secondary Segment is consumed again by the second primary Segment. -/
theorem c1_counterexample :
    (build_phrase_cards itsScenario desScenario 7 (1/4) 4).map (fun cs => cs.map PhraseCard.de) =
      some [("hallo welt").toList, ("hallo welt").toList] ∧ ("hallo welt").toList ≠ [] := by
  constructor
  · decide
  · decide

/-- Claim C1, amended: the cursor is advanced to `max(previous, j-1)` where
`j-1` is the index of the last secondary entry consumed, so it never moves
backward, but the last consumed secondary Segment remains visible to the next
primary Segment; in the scenario both Phrase Cards carry "hallo welt" and the
cursor stays at 0. -/
theorem c1_cursor_keeps_last_consumed :
    (build_phrase_cards itsScenario desScenario 7 (1/4) 4).map (fun cs => cs.map PhraseCard.de) =
      some [("hallo welt").toList, ("hallo welt").toList] ∧
    cursorTrace itsScenario desScenario (1/4) 4 = [0, 0] ∧
    (collect_de_range_monotonic 0 1 desScenario 0 (1/4) 4).2 = 0 := by
  refine ⟨by decide, by decide, by decide⟩

/-! ### C3 — no end-before-start check in the parser -/

/-- Claim C3, counterexample: a block whose end timestamp (1 s) is strictly
before its start timestamp (5 s) still contributes a Segment. -/
theorem c3_counterexample :
    parse_srt ("00:00:05,000 --> 00:00:01,000\nciao").toList =
      some [⟨5, 1, ("ciao").toList⟩] ∧ (1 : ℚ) < 5 := by
  constructor
  · decide
  · decide

/-- Claim C3, amended: the parser copies both timestamps from the timing line
without comparing them; a block with `end < start` yields a Segment with
exactly the parsed values, the same as the well-ordered block. -/
theorem c3_no_duration_check :
    parse_srt ("00:00:05,000 --> 00:00:01,000\nciao").toList = some [⟨5, 1, ("ciao").toList⟩] ∧
    parse_srt ("00:00:01,000 --> 00:00:05,000\nciao").toList = some [⟨1, 5, ("ciao").toList⟩] := by
  constructor
  · decide
  · decide

/-! ### C4 — timing-line selection -/

/-- Claim C4, amended: the timing line is the first line whenever it contains
the substring `-->` anywhere (otherwise the second line), and only that
chosen line is matched against the timestamp pattern; a block whose first
line contains `-->` without a recognizable timestamp pair is discarded even
though its second line holds one, while an index-style first line without
`-->` lets the second line supply the timing. -/
theorem c4_arrow_line_choice (l0 : List Char) (h : containsArrow l0 = false) :
    parseBlock [l0, ("00:00:01,000 --> 00:00:02,000").toList, ("ciao").toList] =
      some (some ⟨1, 2, ("ciao").toList⟩) ∧
    parseBlock [("x --> y").toList, ("00:00:01,000 --> 00:00:02,000").toList, ("ciao").toList] =
      some none := by
  constructor
  · simp only [parseBlock, h, Bool.false_eq_true, if_false]
    decide
  · decide

/-- Claim C4, witness: the amended behaviour at the concrete first line "1". -/
theorem c4_witness :
    containsArrow ("1").toList = false ∧
    parseBlock [("1").toList, ("00:00:01,000 --> 00:00:02,000").toList, ("ciao").toList] =
      some (some ⟨1, 2, ("ciao").toList⟩) :=
  ⟨by decide, (c4_arrow_line_choice (("1").toList) (by decide)).1⟩

/-- Claim C4, counterexample: a document whose block has `-->` in a first
line with no recognizable timestamp pair and a valid timing pair in its
second line yields no Segment, although the claim promises one. -/
theorem c4_counterexample :
    parse_srt ("x --> y\n00:00:01,000 --> 00:00:02,000\nciao").toList = some [] ∧
    findTimePair ("00:00:01,000 --> 00:00:02,000").toList ≠ none := by
  constructor
  · decide
  · decide

/-! ### C10 — the leading-window filter tests only the start time -/

/-- Claim C10: the window filter keeps exactly the entries whose start is
strictly below the bound, regardless of their end; consequently a phrase
card's end (10000 s here, bound 840 s) and a merged segment's end may exceed
the stated window bound. -/
theorem c10_window_start_only :
    (∀ (entries : List Entry) (maxS : ℚ) (e : Entry),
        e ∈ windowFilter entries maxS ↔ e ∈ entries ∧ e.start < maxS) ∧
    windowFilter [⟨0, 10000, ("ciao").toList⟩] 840 = [⟨0, 10000, ("ciao").toList⟩] ∧
    (build_phrase_cards [⟨0, 10000, ("ciao").toList⟩] [] 7 (1/4) 4).map (fun cs => cs.map PhraseCard.stop) =
      some [10000] ∧
    (840 : ℚ) < 10000 ∧
    merge_adjacent_entries [⟨0, 5, ("a").toList⟩, ⟨51/10, 10000, ("b").toList⟩] (7/20) =
      [⟨0, 10000, ("a b").toList⟩] := by
  refine ⟨?_, by decide, by decide, by decide, by decide⟩
  intro entries maxS e
  simp [windowFilter, List.mem_filter]

/-! ### C7 — merge boundary and greedy fusing -/

/-- Claim C7: two consecutive Segments merge exactly when the gap
`next.start - current.end` is at most the threshold (equality merges), the
fused Segment is `⟨current.start, max current.end next.end,
trim (current.text ++ " " ++ next.text)⟩`, and merging is greedy — a freshly
merged Segment merges again with the following one in the same pass.  The
text hypotheses state that the segment texts carry no outer whitespace, the
normalised form the parser guarantees. -/
theorem c7_merge_boundary (thr : ℚ) (s1 s2 s3 : Entry)
    (h1 : rstripChars s1.text = s1.text) (h2 : lstripChars s2.text = s2.text)
    (h3 : lstripChars s3.text = s3.text) :
    (merge_adjacent_entries [s1, s2] thr =
      if s2.start - s1.stop ≤ thr
      then [⟨s1.start, max s1.stop s2.stop, stripChars (s1.text ++ ' ' :: s2.text)⟩]
      else [s1, s2]) ∧
    (s2.start - s1.stop ≤ thr → s3.start - max s1.stop s2.stop ≤ thr →
      merge_adjacent_entries [s1, s2, s3] thr =
        [⟨s1.start, max (max s1.stop s2.stop) s3.stop,
          stripChars (stripChars (s1.text ++ ' ' :: s2.text) ++ ' ' :: s3.text)⟩]) := by
  constructor
  · by_cases hgap : s2.start - s1.stop ≤ thr
    · rw [if_pos hgap]
      simp [merge_adjacent_entries, mergeGo, hgap, h1, h2]
    · rw [if_neg hgap]
      simp [merge_adjacent_entries, mergeGo, hgap]
  · intro hg1 hg2
    simp only [merge_adjacent_entries, mergeGo, if_pos hg1, if_pos hg2, h1, h2, h3]
    rw [rstripChars_stripChars]

/-- Claim C7, witness: with threshold 0.35 s a gap of exactly 0.35 s merges,
a gap of 0.41 s does not, and three chained segments fuse greedily into one. -/
theorem c7_witness :
    merge_adjacent_entries [⟨0, 1, ("a").toList⟩, ⟨27/20, 2, ("b").toList⟩] (7/20) =
      [⟨0, 2, ("a b").toList⟩] ∧
    merge_adjacent_entries [⟨0, 1, ("a").toList⟩, ⟨141/100, 2, ("b").toList⟩] (7/20) =
      [⟨0, 1, ("a").toList⟩, ⟨141/100, 2, ("b").toList⟩] ∧
    merge_adjacent_entries [⟨0, 1, ("a").toList⟩, ⟨27/20, 2, ("b").toList⟩, ⟨47/20, 3, ("c").toList⟩] (7/20) =
      [⟨0, 3, ("a b c").toList⟩] := by
  refine ⟨?_, ?_, ?_⟩
  · have h := (c7_merge_boundary (7/20) ⟨0, 1, ("a").toList⟩ ⟨27/20, 2, ("b").toList⟩
      ⟨47/20, 3, ("c").toList⟩ (by decide) (by decide) (by decide)).1
    rw [if_pos (by decide)] at h
    rw [h]; decide
  · have h := (c7_merge_boundary (7/20) ⟨0, 1, ("a").toList⟩ ⟨141/100, 2, ("b").toList⟩
      ⟨47/20, 3, ("c").toList⟩ (by decide) (by decide) (by decide)).1
    rw [if_neg (by decide)] at h
    exact h
  · have h := (c7_merge_boundary (7/20) ⟨0, 1, ("a").toList⟩ ⟨27/20, 2, ("b").toList⟩
      ⟨47/20, 3, ("c").toList⟩ (by decide) (by decide) (by decide)).2 (by decide) (by decide)
    rw [h]; decide

/-! ### C8 — the parser is total -/

theorem pyIsSpace_eq_false_of_isDigit {c : Char} (h : c.isDigit = true) : pyIsSpace c = false := by
  by_contra hs
  rw [Bool.not_eq_false, pyIsSpace] at hs
  have hmem : c ∈ pySpaceChars := by simpa using hs
  fin_cases hmem <;> simp_all [Char.isDigit]

theorem digit_ne {c : Char} (h : c.isDigit = true) :
    c ≠ ':' ∧ c ≠ ',' ∧ c ≠ '-' ∧ c ≠ '+' := by
  refine ⟨?_, ?_, ?_, ?_⟩ <;> rintro rfl <;> simp [Char.isDigit] at h

theorem digitsAccum_isSome : ∀ {l : List Char}, (∀ c ∈ l, c.isDigit = true) → ∀ acc, (digitsAccum l acc).isSome := by
  intro l
  induction l with
  | nil => intro _ acc; simp [digitsAccum]
  | cons c rest ih =>
    intro h acc
    have hc : c.isDigit = true := h c (by simp)
    simp only [digitsAccum, hc, if_true]
    exact ih (fun d hd => h d (by simp [hd])) _

theorem parseNatDigits_isSome {l : List Char} (hne : l ≠ []) (h : ∀ c ∈ l, c.isDigit = true) :
    (parseNatDigits l).isSome := by
  rw [parseNatDigits, if_neg (by simpa using hne)]
  exact digitsAccum_isSome h 0

theorem pyInt_isSome_of_digits {l : List Char} (hne : l ≠ []) (h : ∀ c ∈ l, c.isDigit = true) :
    (pyInt l).isSome := by
  rw [pyInt]
  have hs : stripChars l = l := stripChars_eq_self (fun c hc => pyIsSpace_eq_false_of_isDigit (h c hc))
  cases l with
  | nil => exact absurd rfl hne
  | cons c rest =>
    have hc := h c (by simp)
    have hne1 : c ≠ '-' := (digit_ne hc).2.2.1
    have hne2 : c ≠ '+' := (digit_ne hc).2.2.2
    simp only [hs, List.head?_cons]
    rw [if_neg (by simp [hne1]), if_neg (by simp [hne2])]
    obtain ⟨v, hv⟩ := Option.isSome_iff_exists.mp (parseNatDigits_isSome (l := c :: rest) (by simp) h)
    simp [hv]

theorem matchTs_shape {l g r} (h : matchTs l = some (g, r)) :
    ∃ a b c d e f x y z : Char,
      g = [a, b, ':', c, d, ':', e, f, ',', x, y, z] ∧
      a.isDigit = true ∧ b.isDigit = true ∧ c.isDigit = true ∧ d.isDigit = true ∧
      e.isDigit = true ∧ f.isDigit = true ∧ x.isDigit = true ∧ y.isDigit = true ∧ z.isDigit = true := by
  unfold matchTs at h
  split at h
  · next a b c d e f x y z rest =>
    split at h
    · next hguard =>
      simp only [Option.some_inj, Prod.mk.injEq] at h
      obtain ⟨hg, _⟩ := h
      simp only [Bool.and_eq_true] at hguard
      exact ⟨a, b, c, d, e, f, x, y, z, hg.symm,
        hguard.1.1.1.1.1.1.1.1, hguard.1.1.1.1.1.1.1.2, hguard.1.1.1.1.1.1.2,
        hguard.1.1.1.1.1.2, hguard.1.1.1.1.2, hguard.1.1.1.2, hguard.1.1.2, hguard.1.2, hguard.2⟩
    · exact absurd h (by simp)
  · exact absurd h (by simp)

theorem t2s_isSome_of_matchTs {l g r} (h : matchTs l = some (g, r)) : (t2s g).isSome := by
  obtain ⟨a, b, c, d, e, f, x, y, z, hg, ha, hb, hc, hd, he, hf, hx, hy, hz⟩ := matchTs_shape h
  subst hg
  have hsplit1 : splitOnChar ':' [a, b, ':', c, d, ':', e, f, ',', x, y, z] =
      [[a, b], [c, d], [e, f, ',', x, y, z]] := by
    simp [splitOnChar, (digit_ne ha).1, (digit_ne hb).1, (digit_ne hc).1, (digit_ne hd).1,
      (digit_ne he).1, (digit_ne hf).1, (digit_ne hx).1, (digit_ne hy).1, (digit_ne hz).1]
  have hsplit2 : splitOnChar ',' [e, f, ',', x, y, z] = [[e, f], [x, y, z]] := by
    simp [splitOnChar, (digit_ne he).2.1, (digit_ne hf).2.1, (digit_ne hx).2.1,
      (digit_ne hy).2.1, (digit_ne hz).2.1]
  simp only [t2s, hsplit1, hsplit2]
  obtain ⟨v1, hv1⟩ := Option.isSome_iff_exists.mp
    (pyInt_isSome_of_digits (l := [a, b]) (by simp) (by intro u hu; simp at hu; rcases hu with rfl | rfl <;> assumption))
  obtain ⟨v2, hv2⟩ := Option.isSome_iff_exists.mp
    (pyInt_isSome_of_digits (l := [c, d]) (by simp) (by intro u hu; simp at hu; rcases hu with rfl | rfl <;> assumption))
  obtain ⟨v3, hv3⟩ := Option.isSome_iff_exists.mp
    (pyInt_isSome_of_digits (l := [e, f]) (by simp) (by intro u hu; simp at hu; rcases hu with rfl | rfl <;> assumption))
  obtain ⟨v4, hv4⟩ := Option.isSome_iff_exists.mp
    (pyInt_isSome_of_digits (l := [x, y, z]) (by simp) (by intro u hu; simp at hu; rcases hu with rfl | rfl | rfl <;> assumption))
  simp [hv1, hv2, hv3, hv4]

theorem tryTimePairAt_groups {l g1 g2} (h : tryTimePairAt l = some (g1, g2)) :
    (t2s g1).isSome ∧ (t2s g2).isSome := by
  rw [tryTimePairAt] at h
  cases h1 : matchTs l with
  | none => rw [h1] at h; simp at h
  | some p1 =>
    rw [h1] at h
    cases p1 with
    | mk g1' r1 =>
      simp only [Option.bind_eq_bind, Option.some_bind] at h
      cases h2 : arrowRest (r1.dropWhile pyIsSpace) with
      | none => rw [h2] at h; simp at h
      | some r2 =>
        rw [h2] at h
        simp only [Option.some_bind] at h
        cases h3 : matchTs (r2.dropWhile pyIsSpace) with
        | none => rw [h3] at h; simp at h
        | some p2 =>
          rw [h3] at h
          cases p2 with
          | mk g2' r3 =>
            simp only [Option.bind_eq_bind, Option.some_bind, Option.pure_def, Option.some_inj, Prod.mk.injEq] at h
            obtain ⟨hg1, hg2⟩ := h
            subst hg1; subst hg2
            exact ⟨t2s_isSome_of_matchTs h1, t2s_isSome_of_matchTs h3⟩

theorem findTimePair_groups : ∀ {l : List Char} {g1 g2 : List Char},
    findTimePair l = some (g1, g2) → (t2s g1).isSome ∧ (t2s g2).isSome := by
  intro l
  induction l with
  | nil => intro g1 g2 h; simp [findTimePair] at h
  | cons c rest ih =>
    intro g1 g2 h
    rw [findTimePair] at h
    cases ht : tryTimePairAt (c :: rest) with
    | none => rw [ht] at h; exact ih h
    | some p =>
      rw [ht] at h
      cases p with
      | mk a b =>
        simp only [Option.some_inj, Prod.mk.injEq] at h
        obtain ⟨h1, h2⟩ := h
        subst h1; subst h2
        exact tryTimePairAt_groups ht

theorem parseBlock_isSome (lines : List (List Char)) : (parseBlock lines).isSome := by
  match lines with
  | [] => simp [parseBlock]
  | [l0] => simp [parseBlock]
  | l0 :: l1 :: rest =>
    rw [parseBlock]
    cases hf : findTimePair (if containsArrow l0 then (l0, l1 :: rest) else (l1, rest)).1 with
    | none => simp
    | some p =>
      cases p with
      | mk g1 g2 =>
        obtain ⟨h1, h2⟩ := findTimePair_groups hf
        obtain ⟨v1, hv1⟩ := Option.isSome_iff_exists.mp h1
        obtain ⟨v2, hv2⟩ := Option.isSome_iff_exists.mp h2
        simp [hv1, hv2]

theorem collectBlocks_isSome (bs : List (List Char)) : (collectBlocks bs).isSome := by
  induction bs with
  | nil => simp [collectBlocks]
  | cons b rest ih =>
    rw [collectBlocks]
    obtain ⟨e, he⟩ := Option.isSome_iff_exists.mp (parseBlock_isSome (blockLines b))
    obtain ⟨es, hes⟩ := Option.isSome_iff_exists.mp ih
    simp [he, hes]

/-- Claim C8: the parser is total — for every document text it returns a
(possibly empty) Segment list; malformed blocks never raise because every
timestamp handed to `t2s` comes from a `TIME_RE` match, on which `t2s`'s
splits and integer conversions always succeed. -/
theorem c8_parser_total (doc : List Char) : ∃ entries : List Entry, parse_srt doc = some entries := by
  rw [parse_srt]
  exact Option.isSome_iff_exists.mp (collectBlocks_isSome _)

/-! ### C2 — idempotence of the cleaning rules -/

theorem findCl_suffix {cl : Char} : ∀ {l r : List Char}, findCl cl l = some r → r.IsSuffix l := by
  intro l
  induction l with
  | nil => intro r h; simp [findCl] at h
  | cons c rest ih =>
    intro r h
    by_cases hc : c = cl
    · simp [findCl, hc] at h
      subst h
      exact (List.suffix_cons c rest)
    · simp [findCl, hc] at h
      exact (ih h).trans (List.suffix_cons c rest)

theorem delimTail_suffix {cl : Char} : ∀ {l r : List Char}, delimTail cl l = some r → r.IsSuffix l := by
  intro l r h
  cases l with
  | nil => simp [delimTail] at h
  | cons c rest =>
    by_cases hc : c = cl
    · simp [delimTail, hc] at h
    · simp [delimTail, hc] at h
      exact (findCl_suffix h).trans (List.suffix_cons c rest)

theorem findCl_eq_none {cl : Char} : ∀ {l : List Char}, findCl cl l = none ↔ cl ∉ l := by
  intro l
  induction l with
  | nil => simp [findCl]
  | cons c rest ih =>
    by_cases hc : c = cl
    · subst hc; simp [findCl]
    · simp [findCl, hc, ih]
      exact fun _ hh => hc hh.symm

theorem delimTail_none_cases {cl : Char} {l : List Char} (h : delimTail cl l = none) :
    l = [] ∨ (∃ r, l = cl :: r) ∨ cl ∉ l := by
  cases l with
  | nil => exact Or.inl rfl
  | cons c rest =>
    by_cases hc : c = cl
    · exact Or.inr (Or.inl ⟨rest, by rw [hc]⟩)
    · simp only [delimTail, hc, if_false, if_neg] at h
      refine Or.inr (Or.inr ?_)
      intro hmem
      rcases List.mem_cons.mp hmem with h1 | h1
      · exact hc h1.symm
      · exact (findCl_eq_none.mp h) h1

theorem delimTail_none_of_not_mem {cl : Char} {l : List Char} (h : cl ∉ l) : delimTail cl l = none := by
  cases l with
  | nil => rfl
  | cons c rest =>
    have hc : c ≠ cl := fun hh => h (by simp [hh])
    simp only [delimTail, hc, if_false, if_neg]
    exact findCl_eq_none.mpr (fun hm => h (by simp [hm]))

theorem mem_stripDelimGo {op cl : Char} : ∀ {fuel : ℕ} {l : List Char} {c : Char},
    c ∈ stripDelimGo op cl fuel l → c ∈ l := by
  intro fuel
  induction fuel with
  | zero => intro l c h; simp [stripDelimGo] at h
  | succ fuel ih =>
    intro l c h
    cases l with
    | nil => simp [stripDelimGo] at h
    | cons d rest =>
      rw [stripDelimGo] at h
      by_cases hd : d = op
      · rw [if_pos hd] at h
        cases ht : delimTail cl rest with
        | some rest' =>
          rw [ht] at h
          exact List.mem_cons_of_mem d ((delimTail_suffix ht).subset (ih h))
        | none =>
          rw [ht] at h
          rcases List.mem_cons.mp h with h1 | h1
          · simp [h1]
          · exact List.mem_cons_of_mem d (ih h1)
      · rw [if_neg hd] at h
        rcases List.mem_cons.mp h with h1 | h1
        · simp [h1]
        · exact List.mem_cons_of_mem d (ih h1)

theorem delimFree_cons_iff {op cl : Char} {c : Char} {rest : List Char} :
    delimFree op cl (c :: rest) = true ↔
      ((c = op → delimTail cl rest = none) ∧ delimFree op cl rest = true) := by
  rw [delimFree]
  by_cases hc : c = op
  · simp [hc, Option.isNone_iff_eq_none]
  · simp [hc]

theorem delimFree_append_right {op cl : Char} : ∀ {a b : List Char},
    delimFree op cl (a ++ b) = true → delimFree op cl b = true := by
  intro a
  induction a with
  | nil => intro b h; simpa using h
  | cons c arest ih =>
    intro b h
    rw [List.cons_append, delimFree_cons_iff] at h
    exact ih h.2

theorem delimTail_none_append_left {cl : Char} {a b : List Char}
    (h : delimTail cl (a ++ b) = none) : delimTail cl a = none := by
  rcases delimTail_none_cases h with h1 | h1 | h1
  · rcases List.append_eq_nil.mp h1 with ⟨ha, _⟩
    simp [ha, delimTail]
  · obtain ⟨r, hr⟩ := h1
    cases a with
    | nil => rfl
    | cons c arest =>
      rw [List.cons_append] at hr
      have : c = cl := (List.cons.injEq _ _ _ _ ▸ hr).1
      simp [delimTail, this]
  · exact delimTail_none_of_not_mem (fun hm => h1 (List.mem_append_left b hm))

theorem delimFree_append_left {op cl : Char} : ∀ {a b : List Char},
    delimFree op cl (a ++ b) = true → delimFree op cl a = true := by
  intro a
  induction a with
  | nil => intro b _; rfl
  | cons c arest ih =>
    intro b h
    rw [List.cons_append, delimFree_cons_iff] at h
    rw [delimFree_cons_iff]
    exact ⟨fun hc => delimTail_none_append_left (h.1 hc), ih h.2⟩

theorem delimTail_stripDelimGo_none {cl op' cl' : Char} (hcl : cl ≠ op')
    {rest : List Char} (h : delimTail cl rest = none) (fuel : ℕ) :
    delimTail cl (stripDelimGo op' cl' fuel rest) = none := by
  rcases delimTail_none_cases h with h1 | h1 | h1
  · subst h1
    cases fuel <;> rfl
  · obtain ⟨r, hr⟩ := h1
    subst hr
    cases fuel with
    | zero => rfl
    | succ fuel =>
      rw [stripDelimGo, if_neg (by exact fun hh => hcl hh)]
      simp [delimTail]
  · exact delimTail_none_of_not_mem (fun hm => h1 (mem_stripDelimGo hm))

theorem delimFree_stripDelimGo_other {op cl op' cl' : Char} (hop : op ≠ op') (hcl : cl ≠ op') :
    ∀ {fuel : ℕ} {l : List Char}, delimFree op cl l = true →
      delimFree op cl (stripDelimGo op' cl' fuel l) = true := by
  intro fuel
  induction fuel with
  | zero => intro l _; rfl
  | succ fuel ih =>
    intro l hfree
    cases l with
    | nil => rfl
    | cons c rest =>
      rw [delimFree_cons_iff] at hfree
      rw [stripDelimGo]
      by_cases hc : c = op'
      · rw [if_pos hc]
        cases ht : delimTail cl' rest with
        | some rest' =>
          obtain ⟨pre, hpre⟩ := delimTail_suffix ht
          exact ih (delimFree_append_right (hpre ▸ hfree.2))
        | none =>
          rw [delimFree_cons_iff]
          constructor
          · intro hcop
            exact absurd (hcop ▸ hc) hop
          · exact ih hfree.2
      · rw [if_neg hc]
        rw [delimFree_cons_iff]
        constructor
        · intro hcop
          exact delimTail_stripDelimGo_none hcl (hfree.1 hcop) fuel
        · exact ih hfree.2

theorem stripDelimGo_delimFree {op cl : Char} (hne : op ≠ cl) :
    ∀ {fuel : ℕ} {l : List Char}, delimFree op cl (stripDelimGo op cl fuel l) = true := by
  intro fuel
  induction fuel with
  | zero => intro l; rfl
  | succ fuel ih =>
    intro l
    cases l with
    | nil => rfl
    | cons c rest =>
      rw [stripDelimGo]
      by_cases hc : c = op
      · rw [if_pos hc]
        cases ht : delimTail cl rest with
        | some rest' => exact ih
        | none =>
          rw [delimFree_cons_iff]
          exact ⟨fun _ => delimTail_stripDelimGo_none (fun hh => hne hh.symm) ht fuel, ih⟩
      · rw [if_neg hc]
        rw [delimFree_cons_iff]
        exact ⟨fun hh => absurd hh hc, ih⟩

theorem stripDelimGo_eq_self {op cl : Char} : ∀ {fuel : ℕ} {l : List Char},
    delimFree op cl l = true → l.length ≤ fuel → stripDelimGo op cl fuel l = l := by
  intro fuel
  induction fuel with
  | zero =>
    intro l _ hlen
    rw [List.length_eq_zero.mp (Nat.le_zero.mp hlen)]
    rfl
  | succ fuel ih =>
    intro l hfree hlen
    cases l with
    | nil => rfl
    | cons c rest =>
      rw [delimFree_cons_iff] at hfree
      rw [stripDelimGo]
      by_cases hc : c = op
      · rw [if_pos hc, hfree.1 hc]
        rw [ih hfree.2 (by simpa using Nat.succ_le_succ_iff.mp hlen)]
      · rw [if_neg hc]
        rw [ih hfree.2 (by simpa using Nat.succ_le_succ_iff.mp hlen)]

theorem stripDelim_eq_self {op cl : Char} {l : List Char} (h : delimFree op cl l = true) :
    stripDelim op cl l = l :=
  stripDelimGo_eq_self h (Nat.le_refl _)

theorem delimTail_map_none {cl : Char} {f : Char → Char} (hcl : ∀ c, f c = cl ↔ c = cl)
    {rest : List Char} (h : delimTail cl rest = none) :
    delimTail cl (rest.map f) = none := by
  rcases delimTail_none_cases h with h1 | h1 | h1
  · subst h1; rfl
  · obtain ⟨r, hr⟩ := h1
    subst hr
    simp [delimTail, (hcl cl).mpr rfl]
  · refine delimTail_none_of_not_mem ?_
    intro hm
    obtain ⟨d, hd, hfd⟩ := List.mem_map.mp hm
    exact h1 (((hcl d).mp hfd) ▸ hd)

theorem delimFree_map {op cl : Char} {f : Char → Char}
    (hop : ∀ c, f c = op ↔ c = op) (hcl : ∀ c, f c = cl ↔ c = cl) :
    ∀ {l : List Char}, delimFree op cl l = true → delimFree op cl (l.map f) = true := by
  intro l
  induction l with
  | nil => intro _; rfl
  | cons c rest ih =>
    intro h
    rw [delimFree_cons_iff] at h
    rw [List.map_cons, delimFree_cons_iff]
    constructor
    · intro hfc
      exact delimTail_map_none hcl (h.1 ((hop c).mp hfc))
    · exact ih h.2

theorem mem_collapseWsGo : ∀ {fuel : ℕ} {l : List Char} {c : Char},
    c ∈ collapseWsGo fuel l → c ∈ l ∨ c = ' ' := by
  intro fuel
  induction fuel with
  | zero => intro l c h; simp [collapseWsGo] at h
  | succ fuel ih =>
    intro l c h
    cases l with
    | nil => simp [collapseWsGo] at h
    | cons d rest =>
      rw [collapseWsGo] at h
      by_cases hd : pyIsSpace d
      · rw [if_pos hd] at h
        rcases List.mem_cons.mp h with h1 | h1
        · exact Or.inr h1
        · rcases ih h1 with h2 | h2
          · exact Or.inl (List.mem_cons_of_mem d ((List.dropWhile_sublist _).subset h2))
          · exact Or.inr h2
      · rw [if_neg hd] at h
        rcases List.mem_cons.mp h with h1 | h1
        · exact Or.inl (by simp [h1])
        · rcases ih h1 with h2 | h2
          · exact Or.inl (List.mem_cons_of_mem d h2)
          · exact Or.inr h2

theorem delimTail_collapseWsGo_none {cl : Char} (hclsp : pyIsSpace cl = false) (hclspace : cl ≠ ' ')
    {rest : List Char} (h : delimTail cl rest = none) (fuel : ℕ) :
    delimTail cl (collapseWsGo fuel rest) = none := by
  rcases delimTail_none_cases h with h1 | h1 | h1
  · subst h1
    cases fuel <;> rfl
  · obtain ⟨r, hr⟩ := h1
    subst hr
    cases fuel with
    | zero => rfl
    | succ fuel =>
      rw [collapseWsGo, if_neg (by simp [hclsp])]
      simp [delimTail]
  · refine delimTail_none_of_not_mem ?_
    intro hm
    rcases mem_collapseWsGo hm with h2 | h2
    · exact h1 h2
    · exact hclspace h2

theorem delimFree_collapseWsGo {op cl : Char}
    (hclsp : pyIsSpace cl = false) (hopspace : op ≠ ' ') (hclspace : cl ≠ ' ') :
    ∀ {fuel : ℕ} {l : List Char}, delimFree op cl l = true →
      delimFree op cl (collapseWsGo fuel l) = true := by
  intro fuel
  induction fuel with
  | zero => intro l _; rfl
  | succ fuel ih =>
    intro l hfree
    cases l with
    | nil => rfl
    | cons c rest =>
      rw [delimFree_cons_iff] at hfree
      rw [collapseWsGo]
      by_cases hc : pyIsSpace c
      · rw [if_pos hc]
        rw [delimFree_cons_iff]
        constructor
        · intro hsp
          exact absurd hsp.symm hopspace
        · obtain ⟨pre, hpre⟩ := List.dropWhile_suffix (l := rest) (p := pyIsSpace)
          exact ih (delimFree_append_right (hpre ▸ hfree.2))
      · rw [if_neg hc]
        rw [delimFree_cons_iff]
        exact ⟨fun hcop => delimTail_collapseWsGo_none hclsp hclspace (hfree.1 hcop) fuel, ih hfree.2⟩

theorem delimFree_lstripChars {op cl : Char} {l : List Char} (h : delimFree op cl l = true) :
    delimFree op cl (lstripChars l) = true := by
  obtain ⟨pre, hpre⟩ := List.dropWhile_suffix (l := l) (p := pyIsSpace)
  exact delimFree_append_right (hpre ▸ h)

theorem delimFree_rstripChars {op cl : Char} {l : List Char} (h : delimFree op cl l = true) :
    delimFree op cl (rstripChars l) = true :=
  delimFree_append_left ((rstripChars_append_eq l).symm ▸ h)

theorem delimFree_stripChars {op cl : Char} {l : List Char} (h : delimFree op cl l = true) :
    delimFree op cl (stripChars l) = true :=
  delimFree_rstripChars (delimFree_lstripChars h)

/-! Absence of a character is preserved by every cleaning stage. -/

theorem braceEnd_suffix : ∀ {l r : List Char}, braceEnd l = some r → r.IsSuffix l := by
  intro l
  induction l with
  | nil => intro r h; simp [braceEnd] at h
  | cons c rest ih =>
    intro r h
    by_cases hc : c = '\x7d'
    · simp [braceEnd, hc] at h
      subst h
      exact List.suffix_cons c rest
    · by_cases hn : c = '\n'
      · simp [braceEnd, hc, hn] at h
      · simp [braceEnd, hc, hn] at h
        exact (ih h).trans (List.suffix_cons c rest)

theorem mem_stripBracesGo : ∀ {fuel : ℕ} {l : List Char} {c : Char},
    c ∈ stripBracesGo fuel l → c ∈ l := by
  intro fuel
  induction fuel with
  | zero => intro l c h; simp [stripBracesGo] at h
  | succ fuel ih =>
    intro l c h
    cases l with
    | nil => simp [stripBracesGo] at h
    | cons d rest =>
      rw [stripBracesGo] at h
      by_cases hd : d = '{' ∧ rest.head? = some '\\'
      · rw [if_pos hd] at h
        cases hb : braceEnd rest.tail with
        | some rest' =>
          rw [hb] at h
          have h1 : c ∈ rest.tail := braceEnd_suffix hb |>.subset (ih h)
          exact List.mem_cons_of_mem d ((List.tail_sublist rest).subset h1)
        | none =>
          rw [hb] at h
          rcases List.mem_cons.mp h with h1 | h1
          · simp [h1]
          · exact List.mem_cons_of_mem d (ih h1)
      · rw [if_neg hd] at h
        rcases List.mem_cons.mp h with h1 | h1
        · simp [h1]
        · exact List.mem_cons_of_mem d (ih h1)

theorem stripBracesGo_eq_self : ∀ {fuel : ℕ} {l : List Char},
    '{' ∉ l → l.length ≤ fuel → stripBracesGo fuel l = l := by
  intro fuel
  induction fuel with
  | zero =>
    intro l _ hlen
    rw [List.length_eq_zero.mp (Nat.le_zero.mp hlen)]
    rfl
  | succ fuel ih =>
    intro l hmem hlen
    cases l with
    | nil => rfl
    | cons c rest =>
      have hc : c ≠ '{' := fun hh => hmem (by simp [hh])
      rw [stripBracesGo, if_neg (fun hh => hc hh.1)]
      rw [ih (fun hm => hmem (List.mem_cons_of_mem c hm)) (by simpa using Nat.succ_le_succ_iff.mp hlen)]

theorem stripBraces_eq_self {l : List Char} (h : '{' ∉ l) : stripBraces l = l :=
  stripBracesGo_eq_self h (Nat.le_refl _)

theorem not_mem_stripDelimGo {op cl : Char} {c : Char} {fuel : ℕ} {l : List Char} (h : c ∉ l) :
    c ∉ stripDelimGo op cl fuel l :=
  fun hm => h (mem_stripDelimGo hm)

theorem not_mem_noteRepl {c : Char} (hc : c ≠ ' ') {l : List Char} (h : c ∉ l) :
    c ∉ noteRepl l := by
  intro hm
  obtain ⟨d, hd, hfd⟩ := List.mem_map.mp hm
  rw [noteChar] at hfd
  by_cases hdn : d = '♪'
  · rw [if_pos hdn] at hfd
    exact hc hfd.symm
  · rw [if_neg hdn] at hfd
    exact h (hfd ▸ hd)

theorem not_mem_collapseWsGo {c : Char} (hc : c ≠ ' ') {fuel : ℕ} {l : List Char} (h : c ∉ l) :
    c ∉ collapseWsGo fuel l := by
  intro hm
  rcases mem_collapseWsGo hm with h1 | h1
  · exact h h1
  · exact hc h1

theorem not_mem_lstripChars {c : Char} {l : List Char} (h : c ∉ l) : c ∉ lstripChars l :=
  fun hm => h ((List.dropWhile_sublist _).subset hm)

theorem not_mem_rstripChars {c : Char} {l : List Char} (h : c ∉ l) : c ∉ rstripChars l := by
  intro hm
  rw [rstripChars] at hm
  exact h (by simpa using (List.dropWhile_sublist (l := l.reverse) (p := pyIsSpace)).subset (by simpa using hm))

theorem not_mem_stripChars {c : Char} {l : List Char} (h : c ∉ l) : c ∉ stripChars l :=
  not_mem_rstripChars (not_mem_lstripChars h)

theorem noteRepl_eq_self {l : List Char} (h : '♪' ∉ l) : noteRepl l = l := by
  induction l with
  | nil => rfl
  | cons c rest ih =>
    have hc : c ≠ '♪' := fun hh => h (by simp [hh])
    rw [noteRepl, List.map_cons, ← noteRepl, ih (fun hm => h (List.mem_cons_of_mem c hm))]
    rw [noteChar, if_neg hc]

theorem not_mem_noteRepl_note {l : List Char} : '♪' ∉ noteRepl l := by
  intro hm
  obtain ⟨d, hd, hfd⟩ := List.mem_map.mp hm
  rw [noteChar] at hfd
  by_cases hdn : d = '♪'
  · rw [if_pos hdn] at hfd
    exact absurd hfd (by decide)
  · rw [if_neg hdn] at hfd
    exact hdn hfd

theorem wsNormal_tail {c : Char} {rest : List Char} (h : wsNormal (c :: rest) = true) :
    wsNormal rest = true := by
  cases rest with
  | nil => rfl
  | cons d r =>
    rw [wsNormal, Bool.and_eq_true] at h
    exact h.2

theorem wsNormal_cons_head {c : Char} {rest : List Char} (h : wsNormal (c :: rest) = true)
    (hsp : pyIsSpace c = true) : c = ' ' ∧ (∀ d, rest.head? = some d → pyIsSpace d = false) := by
  cases rest with
  | nil =>
    rw [wsNormal, hsp] at h
    simp at h
    exact ⟨h, by intro d hd; simp at hd⟩
  | cons d r =>
    rw [wsNormal, hsp, Bool.and_eq_true] at h
    have h1 := h.1
    simp only [Bool.not_true, Bool.false_or, Bool.and_eq_true, decide_eq_true_eq] at h1
    exact ⟨h1.1, by intro e he; simp at he; rw [← he]; simpa using h1.2⟩

theorem wsNormal_cons_of {c : Char} {l : List Char} (hl : wsNormal l = true)
    (h : pyIsSpace c = false ∨ (c = ' ' ∧ ∀ d, l.head? = some d → pyIsSpace d = false)) :
    wsNormal (c :: l) = true := by
  cases l with
  | nil =>
    rw [wsNormal]
    rcases h with h | h
    · simp [h]
    · simp [h.1]
  | cons d r =>
    rw [wsNormal, Bool.and_eq_true]
    refine ⟨?_, hl⟩
    rcases h with h | h
    · simp [h]
    · simp [h.1, h.2 d rfl]

theorem collapseWsGo_head_nonspace {fuel : ℕ} {l : List Char}
    (hl : ∀ c, l.head? = some c → pyIsSpace c = false) :
    ∀ d, (collapseWsGo fuel l).head? = some d → pyIsSpace d = false := by
  intro d hd
  cases fuel with
  | zero => simp [collapseWsGo] at hd
  | succ fuel =>
    cases l with
    | nil => simp [collapseWsGo] at hd
    | cons c rest =>
      have hc : pyIsSpace c = false := hl c rfl
      rw [collapseWsGo, if_neg (by simp [hc])] at hd
      simp at hd
      rw [← hd]
      exact hc

theorem wsNormal_collapseWsGo : ∀ {fuel : ℕ} {l : List Char}, l.length ≤ fuel →
    wsNormal (collapseWsGo fuel l) = true := by
  intro fuel
  induction fuel with
  | zero => intro l _; rfl
  | succ fuel ih =>
    intro l hlen
    cases l with
    | nil => rfl
    | cons c rest =>
      have hrest : rest.length ≤ fuel := by simpa using Nat.succ_le_succ_iff.mp hlen
      rw [collapseWsGo]
      by_cases hc : pyIsSpace c
      · rw [if_pos hc]
        refine wsNormal_cons_of (ih ((List.dropWhile_sublist _).length_le.trans hrest)) (Or.inr ⟨rfl, ?_⟩)
        exact collapseWsGo_head_nonspace (fun e he => head_dropWhile_not he)
      · rw [if_neg hc]
        refine wsNormal_cons_of (ih hrest) (Or.inl (by simpa using hc))

theorem collapseWsGo_eq_self : ∀ {fuel : ℕ} {l : List Char}, wsNormal l = true →
    l.length ≤ fuel → collapseWsGo fuel l = l := by
  intro fuel
  induction fuel with
  | zero =>
    intro l _ hlen
    rw [List.length_eq_zero.mp (Nat.le_zero.mp hlen)]
    rfl
  | succ fuel ih =>
    intro l hn hlen
    cases l with
    | nil => rfl
    | cons c rest =>
      have hrest : rest.length ≤ fuel := by simpa using Nat.succ_le_succ_iff.mp hlen
      rw [collapseWsGo]
      by_cases hc : pyIsSpace c
      · rw [if_pos hc]
        obtain ⟨hc', hhead⟩ := wsNormal_cons_head hn hc
        have hdw : rest.dropWhile pyIsSpace = rest := by
          cases rest with
          | nil => rfl
          | cons d r => rw [List.dropWhile_cons, if_neg (by simp [hhead d rfl])]
        rw [hdw, ih (wsNormal_tail hn) hrest, hc']
      · rw [if_neg hc]
        rw [ih (wsNormal_tail hn) hrest]

theorem wsNormal_dropWhile {p : Char → Bool} : ∀ {l : List Char}, wsNormal l = true →
    wsNormal (l.dropWhile p) = true := by
  intro l
  induction l with
  | nil => intro _; rfl
  | cons c rest ih =>
    intro h
    by_cases hc : p c
    · rw [List.dropWhile_cons, if_pos (by simpa using hc)]
      exact ih (wsNormal_tail h)
    · rw [List.dropWhile_cons, if_neg (by simpa using hc)]
      exact h

theorem wsNormal_append_left : ∀ {a b : List Char}, wsNormal (a ++ b) = true →
    wsNormal a = true := by
  intro a
  induction a with
  | nil => intro b _; rfl
  | cons c arest ih =>
    intro b h
    cases arest with
    | nil =>
      cases b with
      | nil => simpa using h
      | cons d r =>
        simp only [List.cons_append, List.nil_append] at h
        rw [wsNormal, Bool.and_eq_true] at h
        rw [wsNormal]
        rcases Bool.or_eq_true_iff.mp h.1 with h1 | h1
        · simp [h1]
        · simp at h1
          simp [h1.1]
    | cons d arest2 =>
      simp only [List.cons_append] at h
      rw [wsNormal, Bool.and_eq_true] at h
      rw [wsNormal, Bool.and_eq_true]
      exact ⟨h.1, ih (by simpa using h.2)⟩

theorem wsNormal_lstripChars {l : List Char} (h : wsNormal l = true) :
    wsNormal (lstripChars l) = true :=
  wsNormal_dropWhile h

theorem wsNormal_rstripChars {l : List Char} (h : wsNormal l = true) :
    wsNormal (rstripChars l) = true :=
  wsNormal_append_left ((rstripChars_append_eq l).symm ▸ h)

theorem wsNormal_stripChars {l : List Char} (h : wsNormal l = true) :
    wsNormal (stripChars l) = true :=
  wsNormal_rstripChars (wsNormal_lstripChars h)

theorem noteChar_eq_iff {d : Char} (hd1 : d ≠ ' ') (hd2 : d ≠ '♪') (c : Char) :
    noteChar c = d ↔ c = d := by
  rw [noteChar]
  by_cases hc : c = '♪'
  · rw [if_pos hc]
    constructor
    · intro hh; exact absurd hh.symm hd1
    · intro hh; exact absurd (hc ▸ hh).symm hd2
  · rw [if_neg hc]

/-- Claim C2, amended: re-applying the cleaning rules is the identity on the
output of the cleaning rules for every input in which the brace character
does not occur; the restriction is forced because stripping one styling
directive can splice a new `{\...}` directive out of its surroundings, which
only a second pass removes (see the counterexample). -/
theorem c2_clean_idempotent_no_brace {l : List Char} (hbrace : '{' ∉ l) :
    cleanText (cleanText l) = cleanText l := by
  have hne1 : ('<' : Char) ≠ '>' := by decide
  have hne2 : ('[' : Char) ≠ ']' := by decide
  set s1 := stripDelim '<' '>' l with hs1
  have hb1 : '{' ∉ s1 := not_mem_stripDelimGo hbrace
  have hbr : stripBraces s1 = s1 := stripBraces_eq_self hb1
  set s2 := stripDelim '[' ']' s1 with hs2
  have hfree1 : delimFree '<' '>' s1 = true := stripDelimGo_delimFree hne1
  have hfree1b : delimFree '<' '>' s2 = true :=
    delimFree_stripDelimGo_other (by decide) (by decide) hfree1
  have hfree2 : delimFree '[' ']' s2 = true := stripDelimGo_delimFree hne2
  have hb2 : '{' ∉ s2 := not_mem_stripDelimGo hb1
  set s3 := noteRepl s2 with hs3
  have hfree1c : delimFree '<' '>' s3 = true :=
    delimFree_map (noteChar_eq_iff (by decide) (by decide)) (noteChar_eq_iff (by decide) (by decide)) hfree1b
  have hfree2c : delimFree '[' ']' s3 = true :=
    delimFree_map (noteChar_eq_iff (by decide) (by decide)) (noteChar_eq_iff (by decide) (by decide)) hfree2
  have hb3 : '{' ∉ s3 := not_mem_noteRepl (by decide) hb2
  have hn3 : '♪' ∉ s3 := not_mem_noteRepl_note
  set s4 := collapseWs s3 with hs4
  have hfree1d : delimFree '<' '>' s4 = true :=
    delimFree_collapseWsGo (by decide) (by decide) (by decide) hfree1c
  have hfree2d : delimFree '[' ']' s4 = true :=
    delimFree_collapseWsGo (by decide) (by decide) (by decide) hfree2c
  have hb4 : '{' ∉ s4 := not_mem_collapseWsGo (by decide) hb3
  have hn4 : '♪' ∉ s4 := not_mem_collapseWsGo (by decide) hn3
  have hw4 : wsNormal s4 = true := wsNormal_collapseWsGo (Nat.le_refl _)
  set t := stripChars s4 with ht
  have hfree1e : delimFree '<' '>' t = true := delimFree_stripChars hfree1d
  have hfree2e : delimFree '[' ']' t = true := delimFree_stripChars hfree2d
  have hbt : '{' ∉ t := not_mem_stripChars hb4
  have hnt : '♪' ∉ t := not_mem_stripChars hn4
  have hwt : wsNormal t = true := wsNormal_stripChars hw4
  have hT : cleanText l = t := by
    rw [cleanText, ← hs1, hbr, ← hs2, ← hs3, ← hs4, ← ht]
  rw [hT]
  rw [cleanText]
  rw [stripDelim_eq_self hfree1e]
  rw [stripBraces_eq_self hbt]
  rw [stripDelim_eq_self hfree2e]
  rw [noteRepl_eq_self hnt]
  rw [show collapseWs t = t from collapseWsGo_eq_self hwt (Nat.le_refl _)]
  rw [ht, stripChars_idem]

/-- Claim C2, counterexample: cleaning is not idempotent in general — on
the eight-character input `{{\a}\b}` the first pass leaves `{\b}` (the
directive stripper consumed `{\a}` and re-joined a new directive), and a
second pass erases it. -/
theorem c2_counterexample :
    cleanText (cleanText ['\x7b', '\x7b', '\\', 'a', '\x7d', '\\', 'b', '\x7d']) ≠
      cleanText ['\x7b', '\x7b', '\\', 'a', '\x7d', '\\', 'b', '\x7d'] ∧
    cleanText ['\x7b', '\x7b', '\\', 'a', '\x7d', '\\', 'b', '\x7d'] = ['\x7b', '\\', 'b', '\x7d'] := by
  constructor
  · decide
  · decide

/-- Claim C2, witness: idempotence at a brace-free input exercising tags,
brackets, the musical note, and whitespace collapsing. -/
theorem c2_witness :
    ('\x7b' ∉ ("<i>ciao   [suona] ♪ mondo</i> ").toList) ∧
    cleanText (cleanText ("<i>ciao   [suona] ♪ mondo</i> ").toList) =
      cleanText ("<i>ciao   [suona] ♪ mondo</i> ").toList :=
  ⟨by decide, c2_clean_idempotent_no_brace (by decide)⟩

/-! ### C6 — word-card ordering -/

theorem rankInsert_perm (a : TokCount) : ∀ l : List TokCount, (rankInsert a l).Perm (a :: l) := by
  intro l
  induction l with
  | nil => simp [rankInsert]
  | cons b rest ih =>
    rw [rankInsert]
    by_cases h : a.cnt < b.cnt
    · rw [if_pos h]
      exact (ih.cons b).trans (List.Perm.swap a b rest)
    · rw [if_neg h]

theorem rankSort_perm : ∀ l : List TokCount, (rankSort l).Perm l := by
  intro l
  induction l with
  | nil => simp [rankSort]
  | cons a rest ih =>
    rw [rankSort]
    exact (rankInsert_perm a (rankSort rest)).trans (ih.cons a)

theorem mem_rankSort {x : TokCount} {l : List TokCount} (h : x ∈ rankSort l) : x ∈ l :=
  (rankSort_perm l).subset h

theorem rankInsert_sorted {a : TokCount} : ∀ {l : List TokCount},
    l.Pairwise (fun c d => d.cnt ≤ c.cnt) →
    (rankInsert a l).Pairwise (fun c d => d.cnt ≤ c.cnt) := by
  intro l
  induction l with
  | nil => intro _; simp [rankInsert]
  | cons b rest ih =>
    intro h
    rw [List.pairwise_cons] at h
    rw [rankInsert]
    by_cases hab : a.cnt < b.cnt
    · rw [if_pos hab]
      rw [List.pairwise_cons]
      constructor
      · intro x hx
        rcases List.mem_cons.mp ((rankInsert_perm a rest).subset hx) with hx1 | hx1
        · exact hx1 ▸ Nat.le_of_lt hab
        · exact h.1 x hx1
      · exact ih h.2
    · rw [if_neg hab]
      rw [List.pairwise_cons]
      constructor
      · intro x hx
        rcases List.mem_cons.mp hx with hx1 | hx1
        · exact hx1 ▸ Nat.le_of_not_lt hab
        · exact (Nat.le_of_not_lt hab).trans' (h.1 x hx1)
      · rw [List.pairwise_cons]
        exact h

theorem rankSort_sorted : ∀ l : List TokCount,
    (rankSort l).Pairwise (fun c d => d.cnt ≤ c.cnt) := by
  intro l
  induction l with
  | nil => simp [rankSort]
  | cons a rest ih =>
    rw [rankSort]
    exact rankInsert_sorted ih

/-- The pairwise relation witnessing stability of the per-chapter ranking
relative to the encounter-ordered input `L`. -/

theorem rankInsert_pairwise {L : List TokCount} {a : TokCount} : ∀ {l : List TokCount},
    l.Pairwise (rankRel L) → l.Pairwise (fun c d => d.cnt ≤ c.cnt) →
    (∀ b ∈ l, a.cnt < b.cnt → rankRel L b a) → (∀ b ∈ l, b.cnt ≤ a.cnt → rankRel L a b) →
    (rankInsert a l).Pairwise (rankRel L) := by
  intro l
  induction l with
  | nil => intro _ _ _ _; simp [rankInsert, List.pairwise_cons]
  | cons b rest ih =>
    intro hl hsorted h1 h2
    rw [List.pairwise_cons] at hl hsorted
    rw [rankInsert]
    by_cases hab : a.cnt < b.cnt
    · rw [if_pos hab]
      rw [List.pairwise_cons]
      constructor
      · intro x hx
        rcases List.mem_cons.mp ((rankInsert_perm a rest).subset hx) with hx1 | hx1
        · exact hx1 ▸ h1 b (by simp) hab
        · exact hl.1 x hx1
      · exact ih hl.2 hsorted.2 (fun d hd => h1 d (List.mem_cons_of_mem b hd))
          (fun d hd => h2 d (List.mem_cons_of_mem b hd))
    · rw [if_neg hab]
      rw [List.pairwise_cons]
      constructor
      · intro x hx
        rcases List.mem_cons.mp hx with hx1 | hx1
        · exact hx1 ▸ h2 b (by simp) (Nat.le_of_not_lt hab)
        · exact h2 x (List.mem_cons_of_mem b hx1)
            ((hsorted.1 x hx1).trans (Nat.le_of_not_lt hab))
      · rw [List.pairwise_cons]
        exact hl

theorem rankSort_pairwise : ∀ L : List TokCount, (rankSort L).Pairwise (rankRel L) := by
  intro L
  induction L with
  | nil => simp [rankSort]
  | cons a rest ih =>
    rw [rankSort]
    refine rankInsert_pairwise ?_ (rankSort_sorted rest) ?_ ?_
    · refine ih.imp ?_
      intro c d h
      rcases h with h | h
      · exact Or.inl h
      · exact Or.inr ⟨h.1, h.2.cons a⟩
    · intro b _ hab
      exact Or.inl hab
    · intro b hb hba
      rcases Nat.lt_or_eq_of_le hba with h | h
      · exact Or.inl h
      · refine Or.inr ⟨h.symm, ?_⟩
        exact (List.singleton_sublist.mpr (mem_rankSort hb)).cons₂ a

theorem chInsert_perm (a : ℤ × List TokCount) : ∀ l, (chInsert a l).Perm (a :: l) := by
  intro l
  induction l with
  | nil => simp [chInsert]
  | cons b rest ih =>
    rw [chInsert]
    by_cases h : b.1 < a.1
    · rw [if_pos h]
      exact (ih.cons b).trans (List.Perm.swap a b rest)
    · rw [if_neg h]

theorem sortChapters_perm : ∀ l, (sortChapters l).Perm l := by
  intro l
  induction l with
  | nil => simp [sortChapters]
  | cons a rest ih =>
    rw [sortChapters]
    exact (chInsert_perm a (sortChapters rest)).trans (ih.cons a)

theorem chInsert_sorted {a : ℤ × List TokCount} : ∀ {l},
    l.Pairwise (fun p q : ℤ × List TokCount => p.1 ≤ q.1) →
    (chInsert a l).Pairwise (fun p q => p.1 ≤ q.1) := by
  intro l
  induction l with
  | nil => intro _; simp [chInsert]
  | cons b rest ih =>
    intro h
    rw [List.pairwise_cons] at h
    rw [chInsert]
    by_cases hab : b.1 < a.1
    · rw [if_pos hab]
      rw [List.pairwise_cons]
      constructor
      · intro x hx
        rcases List.mem_cons.mp ((chInsert_perm a rest).subset hx) with hx1 | hx1
        · exact hx1 ▸ Int.le_of_lt hab
        · exact h.1 x hx1
      · exact ih h.2
    · rw [if_neg hab]
      rw [List.pairwise_cons]
      constructor
      · intro x hx
        rcases List.mem_cons.mp hx with hx1 | hx1
        · exact hx1 ▸ le_of_not_lt hab
        · exact (le_of_not_lt hab).trans (h.1 x hx1)
      · rw [List.pairwise_cons]
        exact h

theorem sortChapters_sorted : ∀ l, (sortChapters l).Pairwise (fun p q => p.1 ≤ q.1) := by
  intro l
  induction l with
  | nil => simp [sortChapters]
  | cons a rest ih =>
    rw [sortChapters]
    exact chInsert_sorted ih

theorem bumpChapter_keys (ch : ℤ) (f : List TokCount → List TokCount) :
    ∀ l, (bumpChapter ch f l).map Prod.fst =
      if ch ∈ l.map Prod.fst then l.map Prod.fst else l.map Prod.fst ++ [ch] := by
  intro l
  induction l with
  | nil => simp [bumpChapter]
  | cons p rest ih =>
    rw [bumpChapter]
    by_cases h : p.1 = ch
    · rw [if_pos h]
      simp [h]
    · rw [if_neg h]
      by_cases hm : ch ∈ rest.map Prod.fst
      · simp only [List.map_cons, ih, if_pos hm]
        rw [if_pos (by simp [hm])]
      · simp only [List.map_cons, ih, if_neg hm]
        rw [if_neg (by simp [hm]; exact fun hh => h hh.symm)]
        simp

theorem bumpChapter_nodup {ch : ℤ} {f : List TokCount → List TokCount} {l}
    (h : (l.map Prod.fst).Nodup) : ((bumpChapter ch f l).map Prod.fst).Nodup := by
  rw [bumpChapter_keys]
  by_cases hm : ch ∈ l.map Prod.fst
  · rw [if_pos hm]; exact h
  · rw [if_neg hm]
    rw [List.nodup_append]
    exact ⟨h, by simp, by simp [List.disjoint_singleton, hm]⟩

theorem foldl_preserve {α β : Type} (P : β → Prop) (f : β → α → β)
    (hf : ∀ b a, P b → P (f b a)) : ∀ (l : List α) (b : β), P b → P (l.foldl f b) := by
  intro l
  induction l with
  | nil => intro b hb; exact hb
  | cons a rest ih => intro b hb; exact ih _ (hf b a hb)

theorem wordAccum_nodup (cm minLen : ℕ) (stopwords : List (List Char)) (maxEx : ℕ)
    (pairs : List (Entry × PhraseCard)) :
    ((wordAccum cm minLen stopwords maxEx pairs).map Prod.fst).Nodup := by
  rw [wordAccum]
  apply foldl_preserve (fun acc : List (ℤ × List TokCount) => (acc.map Prod.fst).Nodup)
  · intro b a hb
    apply foldl_preserve (fun acc : List (ℤ × List TokCount) => (acc.map Prod.fst).Nodup)
    · intro b' a' hb'
      exact bumpChapter_nodup hb'
    · exact hb
  · simp

theorem lookup_eq_of_mem_nodup : ∀ {l : List (ℤ × List TokCount)},
    (l.map Prod.fst).Nodup → ∀ {ch st}, (ch, st) ∈ l → l.lookup ch = some st := by
  intro l
  induction l with
  | nil => intro _ ch st h; simp at h
  | cons p rest ih =>
    intro hnd ch st hm
    rw [List.map_cons, List.nodup_cons] at hnd
    rcases List.mem_cons.mp hm with h1 | h1
    · rw [← h1]
      simp [List.lookup]
    · have hne : p.1 ≠ ch := by
        intro hh
        exact hnd.1 (hh ▸ List.mem_map_of_mem Prod.fst h1)
      have hbeq : (ch == p.1) = false := beq_eq_false_iff_ne.mpr (fun hh => hne hh.symm)
      simp only [List.lookup, hbeq]
      exact ih hnd.2 h1

theorem chain'_flatten_of_pairwise {α : Type} {R : α → α → Prop} :
    ∀ {gs : List (List α)}, (∀ g ∈ gs, g.Chain' R) →
    gs.Pairwise (fun g h => ∀ a ∈ g, ∀ b ∈ h, R a b) → gs.flatten.Chain' R := by
  intro gs
  induction gs with
  | nil => intro _ _; simp
  | cons g rest ih =>
    intro hall hpw
    rw [List.pairwise_cons] at hpw
    rw [List.flatten_cons]
    rw [List.chain'_append]
    refine ⟨hall g (by simp), ih (fun g' hg' => hall g' (List.mem_cons_of_mem g hg')) hpw.2, ?_⟩
    intro x hx y hy
    obtain ⟨g', hg', hyg⟩ := List.mem_flatten.mp (List.mem_of_mem_head? hy)
    exact hpw.1 g' hg' x (List.mem_of_mem_getLast? hx) y hyg

/-- Claim C6: word cards are emitted by ascending chapter id, within a
chapter by strictly ranked (descending frequency, ties in first-seen order)
tokens, truncated to the configured per-chapter maximum: consecutive cards
satisfy `cardRel` (later chapter, or same chapter with smaller frequency, or
an equal-frequency pair whose tokens appear in encounter order), and every
chapter contributes at most `max_words_per_chapter` cards. -/
theorem c6_word_card_ranking (its : List Entry) (phrases : List PhraseCard)
    (cm minLen maxW : ℕ) (stopwords : List (List Char)) (maxEx : ℕ) (ch : ℤ)
    (cards : List WordCard)
    (h : build_word_cards its phrases cm minLen maxW stopwords maxEx = some cards) :
    cards.Chain' (cardRel (firstSeenTokens its phrases cm minLen stopwords maxEx)) ∧
    (cards.filter (fun c => decide (c.chapterId = ch))).length ≤ maxW := by
  rw [build_word_cards] at h
  split at h
  · exact absurd h (by simp)
  · rw [Option.some_inj] at h
    subst h
    set A := wordAccum cm minLen stopwords maxEx (its.zip phrases) with hA
    set S := sortChapters A with hS
    have hndA : (A.map Prod.fst).Nodup := wordAccum_nodup _ _ _ _ _
    have hpermS : S.Perm A := sortChapters_perm A
    have hndS : (S.map Prod.fst).Nodup := (hpermS.map Prod.fst).nodup_iff.mpr hndA
    have hsorted : S.Pairwise (fun p q => p.1 ≤ q.1) := sortChapters_sorted A
    have hne : S.Pairwise (fun p q => p.1 ≠ q.1) := by
      rw [← List.pairwise_map (f := Prod.fst)]
      exact hndS
    have hlt : S.Pairwise (fun p q => p.1 < q.1) :=
      (hsorted.and hne).imp (fun hpq => lt_of_le_of_ne hpq.1 hpq.2)
    constructor
    · rw [List.flatMap_def]
      refine chain'_flatten_of_pairwise ?_ ?_
      · intro g hg
        obtain ⟨p, hp, hgp⟩ := List.mem_map.mp hg
        subst hgp
        refine List.Pairwise.chain' ?_
        refine List.Pairwise.map _ ?_
          (((rankSort_pairwise p.2).sublist (List.take_sublist _ _)))
        intro a b hab
        rcases hab with hab | hab
        · exact Or.inr ⟨rfl, Or.inl hab⟩
        · refine Or.inr ⟨rfl, Or.inr ⟨hab.1, ?_⟩⟩
          have hlook : A.lookup p.1 = some p.2 :=
            lookup_eq_of_mem_nodup hndA (hpermS.subset hp)
          show List.Sublist _ _
          simp only [firstSeenTokens, ← hA, hlook, Option.getD_some]
          exact hab.2.map TokCount.tok
      · refine List.Pairwise.map _ ?_ hlt
        intro p q hpq a ha b hb
        obtain ⟨ta, _, hta⟩ := List.mem_map.mp ha
        obtain ⟨tb, _, htb⟩ := List.mem_map.mp hb
        subst hta; subst htb
        exact Or.inl hpq
    · have hgen : ∀ gs : List (ℤ × List TokCount), (gs.map Prod.fst).Nodup →
          (((gs.flatMap (fun p => (most_common maxW p.2).map
              (fun t => (⟨p.1, t.tok, t.cnt, t.exs⟩ : WordCard)))).filter
            (fun c => decide (c.chapterId = ch))).length) ≤ maxW := by
        intro gs
        induction gs with
        | nil => intro _; simp
        | cons p rest ihg =>
          intro hnd
          rw [List.map_cons, List.nodup_cons] at hnd
          rw [List.flatMap_cons, List.filter_append, List.length_append]
          by_cases hpch : p.1 = ch
          · have hrest : (List.flatMap rest (fun p => (most_common maxW p.2).map
                (fun t => (⟨p.1, t.tok, t.cnt, t.exs⟩ : WordCard)))).filter
                (fun c => decide (c.chapterId = ch)) = [] := by
              rw [List.filter_eq_nil_iff]
              intro c hc
              obtain ⟨q, hq, hcq⟩ := List.mem_flatMap.mp hc
              obtain ⟨t, _, htq⟩ := List.mem_map.mp hcq
              subst htq
              simp only [decide_eq_true_eq]
              intro hqch
              exact hnd.1 (hpch ▸ hqch ▸ List.mem_map_of_mem Prod.fst hq)
            rw [hrest]
            simp only [List.length_nil, Nat.add_zero]
            calc ((List.map (fun t => (⟨p.1, t.tok, t.cnt, t.exs⟩ : WordCard))
                    (most_common maxW p.2)).filter (fun c => decide (c.chapterId = ch))).length
                ≤ (List.map (fun t => (⟨p.1, t.tok, t.cnt, t.exs⟩ : WordCard))
                    (most_common maxW p.2)).length := List.length_filter_le _ _
              _ = (most_common maxW p.2).length := List.length_map _ _
              _ ≤ maxW := by
                  rw [most_common]
                  exact (List.length_take _ _).trans_le (Nat.min_le_left _ _)
          · have hp0 : (List.map (fun t => (⟨p.1, t.tok, t.cnt, t.exs⟩ : WordCard))
                (most_common maxW p.2)).filter (fun c => decide (c.chapterId = ch)) = [] := by
              rw [List.filter_eq_nil_iff]
              intro c hc
              obtain ⟨t, _, htq⟩ := List.mem_map.mp hc
              subst htq
              simp only [decide_eq_true_eq]
              exact hpch
            rw [hp0]
            simp only [List.length_nil, Nat.zero_add]
            exact ihg hnd.2
      exact hgen S hndS

/-- Claim C6, witness: the ranking property at the example scenario
(`ciao` freq 2, then `mondo` and `nuovo` each freq 1 in first-seen order,
all in chapter 1, far below the cap of 80). -/
theorem c6_witness :
    List.Chain' (cardRel (firstSeenTokens itsScenario phrScenario 7 3 DEFAULT_STOPWORDS_IT 2)) wcScenario ∧
    ((wcScenario.filter (fun c => decide (c.chapterId = 1))).length ≤ 80) :=
  c6_word_card_ranking itsScenario phrScenario 7 3 80 DEFAULT_STOPWORDS_IT 2 1 wcScenario (by decide)
